import Mathlib

/-!
Verification development for the SillyTavern-CharacterName browser extension.

The definitions below are a shallow embedding of the extension source
(`index.js` and the extended script shipped in the repository README):
JavaScript strings become `String`, possibly-undefined fields become
`Option String`, in-place object mutation becomes explicit state passing,
and the DOM surface touched by the code is modelled by explicit node lists.
Modelling notes are attached to each definition.
-/

namespace CharName

/-! ## JavaScript primitives -/

/-- Truthiness of a possibly-undefined JavaScript string: `undefined`,
`null` and the empty string are falsy, every other string is truthy. -/
def strTruthy : Option String → Bool
  | none => false
  | some s => s ≠ ""

/-- The JavaScript `a || b` operator restricted to string-or-undefined
values: yields `a` when `a` is truthy, otherwise `b`. -/
def jsOr (a b : Option String) : Option String :=
  if strTruthy a then a else b

/-- ASCII whitespace recognised by the model of `String.prototype.trim`.
JavaScript also trims some exotic Unicode whitespace; the source only ever
meets ASCII names, so the model restricts itself to the ASCII set. -/
def jsWhitespace (c : Char) : Bool :=
  c = ' ' || c = '\t' || c = '\n' || c = '\r' || c = '\x0b' || c = '\x0c'

/-- Model of `String.prototype.trim`: drop whitespace from both ends. -/
def jsTrim (s : String) : String :=
  ⟨((s.data.dropWhile jsWhitespace).reverse.dropWhile jsWhitespace).reverse⟩

/-- Model of `String.prototype.includes`: substring containment.
JavaScript compares UTF-16 code units; on the names the source handles
this agrees with character-list containment. -/
def strIncludes (s sub : String) : Bool :=
  decide (List.IsInfix sub.data s.data)

/-- Value of a hexadecimal digit, as used by percent-decoding. -/
def hexVal (c : Char) : Option Nat :=
  if '0' ≤ c ∧ c ≤ '9' then some (c.toNat - '0'.toNat)
  else if 'a' ≤ c ∧ c ≤ 'f' then some (c.toNat - 'a'.toNat + 10)
  else if 'A' ≤ c ∧ c ≤ 'F' then some (c.toNat - 'A'.toNat + 10)
  else none

/-- Model of `decodeURIComponent` on the character list: a `%` followed by
two hex digits denoting an ASCII byte is decoded; everything else is kept
verbatim.  (Real `decodeURIComponent` additionally reassembles UTF-8
multi-byte sequences and throws on malformed input; the avatar file names
the source decodes only ever contain ASCII escapes.) -/
def decodeURIChars : List Char → List Char
  | [] => []
  | '%' :: a :: b :: rest =>
    match hexVal a, hexVal b with
    | some ha, some hb =>
      if ha * 16 + hb < 128 then Char.ofNat (ha * 16 + hb) :: decodeURIChars rest
      else '%' :: a :: b :: decodeURIChars rest
    | _, _ => '%' :: decodeURIChars (a :: b :: rest)
  | c :: rest => c :: decodeURIChars rest

/-- Model of `decodeURIComponent` on strings. -/
def decodeURI (s : String) : String :=
  ⟨decodeURIChars s.data⟩

/-! ## Data model

`Character` mirrors the host character record as the source reads it:
`avatar` is the avatar file identifier, `name` the card name, and
`chatName` the value stored under
`character.data.extensions['chat-name'].chatName`. -/

structure Character where
  avatar : Option String
  name : Option String
  chatName : Option String
deriving DecidableEq, Repr

/-- A chat message as the source reads and mutates it.  `origName` is the
underlying stored author name (the plain `name` property before
`applyPersistentName` runs, and the captured `originalName` closure
variable afterwards); `override` is the chat name installed by
`applyPersistentName` (`none` when the message has not been processed,
mirroring membership in the `processedMessages` weak set). -/
structure Message where
  avatar : Option String
  force_avatar : Option String
  original_avatar : Option String
  origName : Option String
  override : Option String
  is_user : Bool
  is_system : Bool
deriving DecidableEq, Repr

/-- Reading `message.name`.  With an installed override the defined getter
returns `chatName || originalName`; otherwise the plain property. -/
def Message.nameRead (m : Message) : Option String :=
  match m.override with
  | some cn => if cn ≠ "" then some cn else m.origName
  | none => m.origName

/-- Writing `message.name = v`.  With an installed override the defined
setter stores into the hidden `originalName`; without one this is a plain
property write.  Both cases update `origName`. -/
def Message.setName (m : Message) (v : String) : Message :=
  { m with origName := some v }

/-! ## Utility functions of the source -/

/-- The final `'/'`-separated segment of a character list, as
`str.split('/').pop()` computes it (the empty segment after a trailing
slash included). -/
def lastSegment (l : List Char) : List Char :=
  (l.reverse.takeWhile (fun c => c ≠ '/')).reverse

/-- The prefix before the first `'?'`, as `str.split('?')[0]` computes
it. -/
def beforeQuery (l : List Char) : List Char :=
  l.takeWhile (fun c => c ≠ '?')

/-- `normalizeAvatar` from `getCharacterForMessage`: keep the final path
segment, drop any query string, percent-decode. -/
def normalizeAvatar (s : Option String) : String :=
  match s with
  | none => ""
  | some str =>
    if str = "" then ""
    else decodeURI ⟨beforeQuery (lastSegment str.data)⟩

/-- `getChatName(character)` from the extended script: the trimmed stored
chat name when non-blank, else the card name, else the empty string. -/
def getChatName : Option Character → String
  | none => ""
  | some character =>
    let trimmed := jsTrim (character.chatName.getD "")
    if trimmed ≠ "" then trimmed else character.name.getD ""

/-- The avatar-like identifier of a message:
`message.avatar || message.force_avatar || message.original_avatar`. -/
def avatarOf (m : Message) : Option String :=
  jsOr (jsOr m.avatar m.force_avatar) m.original_avatar

/-- The trimmed author name of a message: `(message.name || '').trim()`. -/
def msgNameOf (m : Message) : String :=
  jsTrim (m.nameRead.getD "")

/-- `getCharacterForMessage`, matching steps in source order:
1. normalized avatar equality, 2. normalized `original_avatar` equality,
3. exact name equality, 3b. fuzzy name containment with a minimum length
guard, 4. the current character as a last resort in non-group chats.
`characters`, `characterId` and `groupId` are the context fields read. -/
def getCharacterForMessage (characters : List Character)
    (characterId : Option Nat) (groupId : Option String)
    (m : Message) : Option Character :=
  let name := msgNameOf m
  let normalizedAvatar := normalizeAvatar (avatarOf m)
  let step1 := if normalizedAvatar ≠ "" then
      characters.find? (fun c => normalizeAvatar c.avatar = normalizedAvatar)
    else none
  match step1 with
  | some c => some c
  | none =>
    let step2 := if strTruthy m.original_avatar then
        characters.find? (fun c =>
          normalizeAvatar c.avatar = normalizeAvatar m.original_avatar)
      else none
    match step2 with
    | some c => some c
    | none =>
      let step3 := if name ≠ "" then
          characters.find? (fun c => c.name = some name)
        else none
      match step3 with
      | some c => some c
      | none =>
        let step3b := if name ≠ "" then
            characters.find? (fun c =>
              let charName := jsTrim (c.name.getD "")
              charName.length > 2 &&
                (strIncludes name charName || strIncludes charName name))
          else none
        match step3b with
        | some c => some c
        | none =>
          if characterId.isSome && !(strTruthy groupId) then
            characters.get? (characterId.getD 0)
          else none

/-- `applyPersistentName(message, chatName)`: install the persistent name
override unless the message was already processed or the name is falsy.
The defined property is modelled by the `override` field; the captured
`originalName` is the `origName` field, which is left untouched. -/
def applyPersistentName (m : Message) (chatName : String) : Message :=
  if m.override.isSome || chatName = "" then m
  else { m with override := some chatName }

/-! ## DOM model

`applyNameOverrideToElement` walks a fixed list of selectors; each
selector either finds no element or finds a name-bearing element.  An
element is modelled by its child node list; `elemNode` children are
nested elements (icons and the like, with their own flattened text),
`textNode` children are direct text nodes.  A message rendering block is
the list of per-selector query results, in selector order.  Distinct
selectors are modelled as hitting distinct nodes; the source relies on
the same determinism. -/

inductive ChildNode where
  | textNode (content : String)
  | elemNode (content : String)
deriving DecidableEq, Repr

/-- Whether a child node is an element node. -/
def ChildNode.isElem : ChildNode → Bool
  | .textNode _ => false
  | .elemNode _ => true

/-- The text carried by a child node. -/
def ChildNode.text : ChildNode → String
  | .textNode s => s
  | .elemNode s => s

/-- A name-bearing DOM element: its child node list. -/
structure NameElem where
  childNodes : List ChildNode
deriving DecidableEq, Repr

/-- `element.children.length`: only element children count. -/
def NameElem.elemChildCount (e : NameElem) : Nat :=
  e.childNodes.countP ChildNode.isElem

/-- `element.textContent`: concatenated text of all child nodes. -/
def NameElem.textContent (e : NameElem) : String :=
  String.join (e.childNodes.map ChildNode.text)

/-- A message rendering block: the query result for each selector tried
by `applyNameOverrideToElement`, in order. -/
abbrev MesElement := List (Option NameElem)

/-- Result of the inner `for (const child of nameElement.childNodes)`
loop: either no non-blank text node was found, or the updated child list
together with the fact whether a DOM write happened. -/
inductive TextWriteResult where
  | notFound
  | found (nodes : List ChildNode) (wrote : Bool)
deriving DecidableEq, Repr

/-- The inner child-node loop of `applyNameOverrideToElement`: find the
first text node with non-blank trimmed content; rewrite it when its
trimmed content differs from `chatName`. -/
def updateFirstText (chatName : String) : List ChildNode → TextWriteResult
  | [] => .notFound
  | .textNode s :: rest =>
    if jsTrim s ≠ "" then
      if jsTrim s ≠ chatName then .found (.textNode chatName :: rest) true
      else .found (.textNode s :: rest) false
    else
      match updateFirstText chatName rest with
      | .notFound => .notFound
      | .found r w => .found (.textNode s :: r) w
  | .elemNode t :: rest =>
    match updateFirstText chatName rest with
    | .notFound => .notFound
    | .found r w => .found (.elemNode t :: r) w

/-- `applyNameOverrideToElement(messageElement, chatName)`: walk the
selector results; on a childless element rewrite `textContent` when it
differs and stop; on an element with children rewrite the first
non-blank text node (comparing trimmed text) and stop, or fall through
to the next selector when no such text node exists.  Returns the updated
block and the number of DOM text writes performed. -/
def applyNameOverrideToElement : MesElement → String → MesElement × Nat
  | [], _ => ([], 0)
  | none :: rest, chatName =>
    let r := applyNameOverrideToElement rest chatName
    (none :: r.1, r.2)
  | some el :: rest, chatName =>
    if el.elemChildCount = 0 then
      if el.textContent ≠ chatName then
        (some ⟨[.textNode chatName]⟩ :: rest, 1)
      else (some el :: rest, 0)
    else
      match updateFirstText chatName el.childNodes with
      | .found nodes wrote =>
        (some ⟨nodes⟩ :: rest, if wrote then 1 else 0)
      | .notFound =>
        let r := applyNameOverrideToElement rest chatName
        (some el :: r.1, r.2)

/-! ## Synchronizer state -/

/-- The name cache, a JavaScript `Map` keyed by strings.  `cacheSet`
places the new binding in front and removes any previous binding for the
same key, preserving lookup semantics. -/
def cacheGet (c : List (String × String)) (k : String) : Option String :=
  (c.find? (fun p => p.1 = k)).map (fun p => p.2)

/-- Insert-or-replace into the name cache. -/
def cacheSet (c : List (String × String)) (k v : String) :
    List (String × String) :=
  (k, v) :: c.filter (fun p => p.1 ≠ k)

/-- The slice of host context and extension state that the data-level
synchronizer reads and writes: the character roster, the selected
character index, the group id, the `name2` field, the transcript, the
rendered message blocks (indexed by message id) and the name cache. -/
structure ChatState where
  characters : List Character
  characterId : Option Nat
  groupId : Option String
  name2 : String
  chat : List Message
  dom : List (Option MesElement)
  cache : List (String × String)
deriving DecidableEq, Repr

/-- The cache key of a message:
`message.avatar || message.force_avatar || message.original_avatar || message.name`. -/
def cacheKeyOf (m : Message) : Option String :=
  jsOr (avatarOf m) m.nameRead

/-- `updateUIName(messageId)`: look the message up, skip user and system
messages, locate its rendering block and apply the name override to it.
The name passed is `message.name`; at every call site inside the
synchronizer the message has a non-empty installed override, so the
defaulted string is never the placeholder. -/
def updateUIName (st : ChatState) (messageId : Nat) : ChatState × Nat :=
  match st.chat.get? messageId with
  | none => (st, 0)
  | some m =>
    if m.is_user || m.is_system then (st, 0)
    else
      match st.dom.get? messageId with
      | some (some el) =>
        let r := applyNameOverrideToElement el (m.nameRead.getD "")
        ({ st with dom := st.dom.set messageId (some r.1) }, r.2)
      | _ => (st, 0)

/-- Step 1 of `syncChatData`: override `name2` for one-on-one chats when
the resolved chat name is non-empty and differs. -/
def syncName2 (st : ChatState) : ChatState :=
  if st.characterId.isSome && !(strTruthy st.groupId) then
    let char := st.characters.get? (st.characterId.getD 0)
    let chatName := getChatName char
    if chatName ≠ "" && st.name2 ≠ chatName then { st with name2 := chatName }
    else st
  else st

/-- The resolver-plus-override lookup performed on a cache miss:
`getChatName(getCharacterForMessage(message))`. -/
def resolveNow (st : ChatState) (m : Message) : String :=
  getChatName (getCharacterForMessage st.characters st.characterId st.groupId m)

/-- The cache consultation of the `forEach` body: a hit returns the
memoized name; a miss resolves and memoizes under a truthy key. -/
def stepLookup (st : ChatState) (m : Message) : String × ChatState :=
  let cacheKey := cacheKeyOf m
  let cached : Option String :=
    match cacheKey with
    | some k => cacheGet st.cache k
    | none => none
  match cached with
  | some v => (v, st)
  | none =>
    let cn := resolveNow st m
    if strTruthy cacheKey then
      (cn, { st with cache := cacheSet st.cache (cacheKey.getD "") cn })
    else (cn, st)

/-- The override installation and DOM update of the `forEach` body, run
when the resolved name is truthy. -/
def stepApply (st : ChatState) (m : Message) (id : Nat) (chatName : String)
    (w : Nat) : ChatState × Nat :=
  if chatName ≠ "" then
    let st2 := { st with chat := st.chat.set id (applyPersistentName m chatName) }
    let u := updateUIName st2 id
    (u.1, w + u.2)
  else (st, w)

/-- The body of the `ctx.chat.forEach` loop in `syncChatData`, for the
message at index `id`: skip user and system messages, consult the cache,
resolve and memoize on a miss, then install the persistent override and
update the rendered block when the resolved name is non-empty.  `w` is
the running DOM write count. -/
def syncStep (st : ChatState) (w : Nat) (id : Nat) : ChatState × Nat :=
  match st.chat.get? id with
  | none => (st, w)
  | some m =>
    if m.is_user || m.is_system then (st, w)
    else
      let r := stepLookup st m
      stepApply r.2 m id r.1 w

/-- The `forEach` loop over a list of message indices. -/
def syncLoop (acc : ChatState × Nat) (ids : List Nat) : ChatState × Nat :=
  ids.foldl (fun acc id => syncStep acc.1 acc.2 id) acc

/-- `syncChatData`: the `name2` override followed by the per-message
loop over the transcript.  Returns the new state and the number of DOM
text writes performed. -/
def syncChatData (st : ChatState) : ChatState × Nat :=
  let st0 := syncName2 st
  syncLoop (st0, 0) (List.range st0.chat.length)

/-- `updateAllNames`: clear the name cache in full, then resynchronize. -/
def updateAllNames (st : ChatState) : ChatState × Nat :=
  syncChatData { st with cache := [] }

/-! ## Invariants used to analyse repeated synchronizer runs -/

/-- The rendering block at index `id`, if present, is a fixed point of
the name override for the string `ov`: applying it again changes nothing
and performs no DOM write. -/
def settledDom (st : ChatState) (id : Nat) (ov : String) : Prop :=
  match st.dom.get? id with
  | some (some el) => applyNameOverrideToElement el ov = (el, 0)
  | _ => True

/-- After a full synchronizer run, a still-unprocessed character message
resolves to the empty name: either its key is memoized as empty, or its
key is untruthy and the direct resolution is empty. -/
def InvA (st : ChatState) (m : Message) : Prop :=
  match cacheKeyOf m with
  | none => resolveNow st m = ""
  | some k => cacheGet st.cache k = some "" ∨
      (cacheGet st.cache k = none ∧ k = "" ∧ resolveNow st m = "")

/-- After a full synchronizer run, a processed character message carries
a non-empty trim-stable override, and either its rendering block is
settled for that override or its key is memoized as empty. -/
def InvB (st : ChatState) (id : Nat) (m : Message) : Prop :=
  ∀ ov, m.override = some ov → ov ≠ "" ∧ jsTrim ov = ov ∧
    (settledDom st id ov ∨
      ∃ k, cacheKeyOf m = some k ∧ cacheGet st.cache k = some "")

/-- The per-index invariant a full synchronizer run establishes. -/
def Inv (st : ChatState) (id : Nat) : Prop :=
  ∀ m, st.chat.get? id = some m → m.is_user = false → m.is_system = false →
    (m.override = none → InvA st m) ∧ InvB st id m

/-- Trim-stability of the ambient data: every memoized name, every
installed override and every card name equals its own trim (and
installed overrides are non-empty, as `applyPersistentName`
guarantees). -/
def GoodState (st : ChatState) : Prop :=
  (∀ p ∈ st.cache, jsTrim p.2 = p.2) ∧
  (∀ m ∈ st.chat, ∀ ov, m.override = some ov → ov ≠ "" ∧ jsTrim ov = ov) ∧
  (∀ c ∈ st.characters, jsTrim (c.name.getD "") = c.name.getD "")

/-- How one `forEach` step may change the cache: not at all, or by
memoizing one previously absent truthy key. -/
def CacheExtends (c c2 : List (String × String)) : Prop :=
  c2 = c ∨ ∃ k v, k ≠ "" ∧ cacheGet c k = none ∧ c2 = cacheSet c k v

/-! ## Macro registration

The macro registry generations are external black boxes; the model
records which generation is present and whether its registration calls
throw.  `registerMacroOverrides` mirrors the source: the new-engine block
(`hasMacro`/`unregisterMacro`/`registerMacro` plus the optional
environment provider) runs inside one `try`/`catch`, and the legacy
`ctx.registerMacro` call runs inside its own `try`/`catch` afterwards. -/

structure MacroHost where
  hasMacros : Bool
  hasEnvBuilder : Bool
  newRegFails : Bool
  hasLegacy : Bool
  legacyFails : Bool
deriving DecidableEq, Repr

/-- What one invocation of `registerMacroOverrides` accomplished. -/
structure RegOutcome where
  newAttempted : Bool
  newRegistered : Bool
  envRegistered : Bool
  legacyAttempted : Bool
  legacyRegistered : Bool
deriving DecidableEq, Repr

/-- The new-engine registration block: may throw.  On success it reports
whether the environment provider was also registered. -/
def newEngineRegister (h : MacroHost) : Except String Bool :=
  if h.newRegFails then Except.error "macro registration failed"
  else Except.ok h.hasEnvBuilder

/-- The legacy registration call: may throw. -/
def legacyRegister (h : MacroHost) : Except String Unit :=
  if h.legacyFails then Except.error "legacy registration failed"
  else Except.ok ()

/-- `registerMacroOverrides`: attempt each generation that is present,
catching registration failures locally so that the other generation is
still attempted and no exception reaches the caller. -/
def registerMacroOverrides (h : MacroHost) : Except String RegOutcome := do
  let mut out : RegOutcome :=
    { newAttempted := false, newRegistered := false, envRegistered := false,
      legacyAttempted := false, legacyRegistered := false }
  if h.hasMacros then
    out := { out with newAttempted := true }
    match newEngineRegister h with
    | Except.ok env => out := { out with newRegistered := true, envRegistered := env }
    | Except.error _ => pure ()
  if h.hasLegacy then
    out := { out with legacyAttempted := true }
    match legacyRegister h with
    | Except.ok _ => out := { out with legacyRegistered := true }
    | Except.error _ => pure ()
  return out

/-! ## Lifecycle

`World` bundles the extension state that `initialize` touches: the
synchronizer state, the injected input field, the attached listeners,
the chat observer, the macro host, and the two guard flags.  The
counters record how many subscriptions, field injections and macro
registrations have been performed, so that duplicate work is visible. -/

structure World where
  chatState : ChatState
  tagsDivPresent : Bool
  inputFieldPresent : Bool
  inputFieldsCreated : Nat
  host : MacroHost
  regCount : Nat
  hasEventSource : Bool
  eventListenersAttached : Bool
  subscriptionCount : Nat
  chatContainerPresent : Bool
  observerActive : Bool
  initialized : Bool
deriving DecidableEq, Repr

/-- `addInputField`: inject the editor input once; a no-op when the field
already exists or its anchor is missing. -/
def addInputField (w : World) : World :=
  if w.inputFieldPresent then w
  else if !w.tagsDivPresent then w
  else { w with inputFieldPresent := true,
                inputFieldsCreated := w.inputFieldsCreated + 1 }

/-- Number of registrations one `registerMacroOverrides` run performs. -/
def regPerformed (o : RegOutcome) : Nat :=
  (if o.newRegistered then 1 else 0) + (if o.envRegistered then 1 else 0) +
    (if o.legacyRegistered then 1 else 0)

/-- The effect of `registerMacroOverrides` on the world: bump the
registration counter by the registrations performed.  The error branch is
unreachable because every failure is caught locally. -/
def applyRegistration (w : World) : World :=
  match registerMacroOverrides w.host with
  | Except.ok o => { w with regCount := w.regCount + regPerformed o }
  | Except.error _ => w

/-- `attachEventListeners`: subscribe the seven handlers once, guarded by
the `eventListenersAttached` flag and the presence of the event bus. -/
def attachEventListeners (w : World) : World :=
  if w.eventListenersAttached || !w.hasEventSource then w
  else { w with subscriptionCount := w.subscriptionCount + 7,
                eventListenersAttached := true }

/-- `setupChatObserver`: start the mutation observer once. -/
def setupChatObserver (w : World) : World :=
  if !w.chatContainerPresent || w.observerActive then w
  else { w with observerActive := true }

/-- `updateAllNames` lifted to the world. -/
def updateAllNamesW (w : World) : World :=
  { w with chatState := (updateAllNames w.chatState).1 }

/-- The `initialize(ctx)` entry point (named `initExtension` here because
its source name collides with a reserved word): guarded by the
`initialized` flag, it injects the input field, registers the macro
overrides, attaches the event listeners, starts the observer, runs one
full synchronization, and sets the flag. -/
def initExtension (w : World) : World :=
  if w.initialized then w
  else
    let w1 := addInputField w
    let w2 := applyRegistration w1
    let w3 := attachEventListeners w2
    let w4 := setupChatObserver w3
    let w5 := updateAllNamesW w4
    { w5 with initialized := true }

/-! ## Concrete example data

Used to instantiate the theorems below on closed inputs. -/

/-- A rendering block whose name element has an icon child and a text
child, exercising the child-rewrite branch of the DOM updater. -/
def exElem : NameElem := ⟨[ChildNode.elemNode "i", ChildNode.textNode "Bob"]⟩

/-- A one-character, one-message state with trim-stable names. -/
def exGoodState : ChatState :=
  { characters := [⟨some "a.png", some "Bob", none⟩],
    characterId := some 0, groupId := none, name2 := "",
    chat := [⟨some "a.png", none, none, some "Bob", none, false, false⟩],
    dom := [some [some exElem]], cache := [] }

/-- The same state with a card name carrying a trailing space, the input
on which the second synchronizer run still writes. -/
def exRaggedState : ChatState :=
  { characters := [⟨some "a.png", some "Bob ", none⟩],
    characterId := some 0, groupId := none, name2 := "",
    chat := [⟨some "a.png", none, none, some "Bob ", none, false, false⟩],
    dom := [some [some exElem]], cache := [] }

/-- A state whose character has override "B" while its only message
still carries a previously installed override "A"; the cache has been
cleared in full. -/
def exStaleOverrideState : ChatState :=
  { characters := [⟨some "a.png", some "Card", some "B"⟩],
    characterId := some 0, groupId := none, name2 := "",
    chat := [⟨some "a.png", none, none, some "Card", some "A", false, false⟩],
    dom := [none], cache := [] }

/-- A state with one user message, for the untouchability claim. -/
def exUserState : ChatState :=
  { characters := [⟨some "a.png", some "Bob", none⟩],
    characterId := some 0, groupId := none, name2 := "",
    chat := [⟨none, none, none, some "You", none, true, false⟩],
    dom := [some [some exElem]], cache := [] }

/-! ## Basic lemmas -/

/-- Writing the name field never changes the installed override. -/
theorem setName_override (m : Message) (v : String) :
    (m.setName v).override = m.override := by
  simp [Message.setName]

/-- A fold of name-field writes never changes the installed override. -/
theorem foldl_setName_override (vs : List String) (m : Message) :
    (vs.foldl Message.setName m).override = m.override := by
  induction vs generalizing m with
  | nil => rfl
  | cons v vs ih => simpa [List.foldl, Message.setName] using ih (m.setName v)

/-- Reading the name of a message with a non-empty installed override
yields that override. -/
theorem nameRead_of_override (m : Message) (cn : String)
    (h1 : m.override = some cn) (h2 : cn ≠ "") : m.nameRead = some cn := by
  simp [Message.nameRead, h1, h2]

/-- A completed initialization leaves the guard flag set. -/
theorem initExtension_initialized (w : World) :
    (initExtension w).initialized = true := by
  by_cases h : w.initialized <;> simp [initExtension, h]

/-- With the guard flag set, `initExtension` is the identity. -/
theorem initExtension_of_initialized (w : World) (h : w.initialized = true) :
    initExtension w = w := by
  simp [initExtension, h]

/-! ## Trimming lemmas -/

/-- The head surviving a `dropWhile` does not satisfy the predicate. -/
theorem dropWhile_head_false {α} (p : α → Bool) (l : List α) (x : α)
    (xs : List α) (h : l.dropWhile p = x :: xs) : p x = false := by
  induction l with
  | nil => simp [List.dropWhile] at h
  | cons a as ih =>
    rw [List.dropWhile_cons] at h
    by_cases hp : p a
    · exact ih (by simpa [hp] using h)
    · obtain ⟨h1, h2⟩ := by simpa [hp] using h
      subst h1
      simpa using hp

/-- Trimming is idempotent. -/
theorem jsTrim_idem (s : String) : jsTrim (jsTrim s) = jsTrim s := by
  show String.mk _ = String.mk _
  have hdata : (jsTrim s).data
      = ((s.data.dropWhile jsWhitespace).reverse.dropWhile jsWhitespace).reverse :=
    rfl
  rw [hdata]
  generalize s.data = X
  set w := jsWhitespace with hw
  set l1 := X.dropWhile w with hl1
  set r := l1.reverse.dropWhile w with hr
  have h1 : r.reverse.dropWhile w = r.reverse := by
    cases hrv : r.reverse with
    | nil => simp
    | cons c t =>
      have hsplit : l1.reverse.takeWhile w ++ r = l1.reverse := by
        rw [hr]; exact List.takeWhile_append_dropWhile w l1.reverse
      have hl1eq : l1 = c :: (t ++ (l1.reverse.takeWhile w).reverse) := by
        calc l1 = l1.reverse.reverse := by simp
        _ = (l1.reverse.takeWhile w ++ r).reverse := by rw [hsplit]
        _ = r.reverse ++ (l1.reverse.takeWhile w).reverse := by
            rw [List.reverse_append]
        _ = c :: (t ++ (l1.reverse.takeWhile w).reverse) := by rw [hrv]; simp
      have hc : w c = false := by
        refine dropWhile_head_false w X c
          (t ++ (List.takeWhile w l1.reverse).reverse) ?_
        rw [← hl1]
        exact hl1eq
      rw [List.dropWhile_cons, hc]
      simp
  rw [h1, List.reverse_reverse]
  have h2 : r.dropWhile w = r := by
    cases hrr : r with
    | nil => simp
    | cons d ds =>
      have hd : w d = false := by
        refine dropWhile_head_false w l1.reverse d ds ?_
        rw [← hr, hrr]
      rw [List.dropWhile_cons, hd]
      simp
  rw [h2]

/-- The empty string is trim-stable. -/
theorem jsTrim_empty : jsTrim "" = "" := rfl

/-- Resolved chat names are trim-stable whenever card names are. -/
theorem getChatName_trimStable (c : Option Character)
    (h : ∀ ch, c = some ch → jsTrim (ch.name.getD "") = ch.name.getD "") :
    jsTrim (getChatName c) = getChatName c := by
  cases c with
  | none => exact jsTrim_empty
  | some ch =>
    rw [getChatName]
    by_cases hb : jsTrim (ch.chatName.getD "") ≠ ""
    · simpa [hb] using jsTrim_idem (ch.chatName.getD "")
    · simpa [hb] using h ch rfl

/-! ## DOM settling lemmas -/

/-- Unfolding: inner loop at a kept non-blank text node. -/
theorem updateFirstText_text_keep (c s : String) (rest : List ChildNode)
    (hs : jsTrim s ≠ "") (hne : jsTrim s = c) :
    updateFirstText c (.textNode s :: rest)
      = .found (.textNode s :: rest) false := by
  rw [updateFirstText, if_pos hs, if_neg (by simp [hne])]

/-- Unfolding: inner loop at a rewritten non-blank text node. -/
theorem updateFirstText_text_write (c s : String) (rest : List ChildNode)
    (hs : jsTrim s ≠ "") (hne : jsTrim s ≠ c) :
    updateFirstText c (.textNode s :: rest)
      = .found (.textNode c :: rest) true := by
  rw [updateFirstText, if_pos hs, if_pos hne]

/-- Unfolding: inner loop skipping a blank text node. -/
theorem updateFirstText_text_blank (c s : String) (rest : List ChildNode)
    (hs : jsTrim s = "") :
    updateFirstText c (.textNode s :: rest)
      = match updateFirstText c rest with
        | .notFound => .notFound
        | .found r w2 => .found (.textNode s :: r) w2 := by
  rw [updateFirstText, if_neg (by simp [hs])]

/-- Unfolding: inner loop skipping an element node. -/
theorem updateFirstText_elem (c t : String) (rest : List ChildNode) :
    updateFirstText c (.elemNode t :: rest)
      = match updateFirstText c rest with
        | .notFound => .notFound
        | .found r w2 => .found (.elemNode t :: r) w2 := by
  rw [updateFirstText]

/-- The inner child-node loop preserves the element-children count. -/
theorem updateFirstText_elemCount (c : String) (l : List ChildNode)
    (r : List ChildNode) (wr : Bool) (h : updateFirstText c l = .found r wr) :
    r.countP ChildNode.isElem = l.countP ChildNode.isElem := by
  induction l generalizing r wr with
  | nil => simp [updateFirstText] at h
  | cons n rest ih =>
    cases n with
    | textNode s =>
      by_cases hs : jsTrim s = ""
      · rw [updateFirstText_text_blank c s rest hs] at h
        cases hrec : updateFirstText c rest with
        | notFound => rw [hrec] at h; simp at h
        | found r0 wr0 =>
          rw [hrec] at h
          cases h
          simp [List.countP_cons, ih _ _ hrec]
      · by_cases hne : jsTrim s = c
        · rw [updateFirstText_text_keep c s rest hs hne] at h
          cases h
          rfl
        · rw [updateFirstText_text_write c s rest hs hne] at h
          cases h
          simp [List.countP_cons, ChildNode.isElem]
    | elemNode t =>
      rw [updateFirstText_elem c t rest] at h
      cases hrec : updateFirstText c rest with
      | notFound => rw [hrec] at h; simp at h
      | found r0 wr0 =>
        rw [hrec] at h
        cases h
        simp [List.countP_cons, ih _ _ hrec]

/-- After the inner loop ran over a child list, running it again on the
result finds the same node and writes nothing, provided the written name
is non-empty and trim-stable. -/
theorem updateFirstText_settled (c : String) (hc : c ≠ "")
    (ht : jsTrim c = c) (l : List ChildNode) (r : List ChildNode) (wr : Bool)
    (h : updateFirstText c l = .found r wr) :
    updateFirstText c r = .found r false := by
  induction l generalizing r wr with
  | nil => simp [updateFirstText] at h
  | cons n rest ih =>
    cases n with
    | textNode s =>
      by_cases hs : jsTrim s = ""
      · rw [updateFirstText_text_blank c s rest hs] at h
        cases hrec : updateFirstText c rest with
        | notFound => rw [hrec] at h; simp at h
        | found r0 wr0 =>
          rw [hrec] at h
          cases h
          rw [updateFirstText_text_blank c s r0 hs, ih _ _ hrec]
      · by_cases hne : jsTrim s = c
        · rw [updateFirstText_text_keep c s rest hs hne] at h
          cases h
          exact updateFirstText_text_keep c s rest hs hne
        · rw [updateFirstText_text_write c s rest hs hne] at h
          cases h
          exact updateFirstText_text_keep c c rest (by rw [ht]; exact hc) ht
    | elemNode t =>
      rw [updateFirstText_elem c t rest] at h
      cases hrec : updateFirstText c rest with
      | notFound => rw [hrec] at h; simp at h
      | found r0 wr0 =>
        rw [hrec] at h
        cases h
        rw [updateFirstText_elem c t r0, ih _ _ hrec]

/-- Unfolding: name override past an absent selector result. -/
theorem applyElem_cons_none (rest : MesElement) (c : String) :
    applyNameOverrideToElement (none :: rest) c
      = (none :: (applyNameOverrideToElement rest c).1,
          (applyNameOverrideToElement rest c).2) := by
  rw [applyNameOverrideToElement]

/-- Unfolding: name override at a present selector result. -/
theorem applyElem_cons_some (e : NameElem) (rest : MesElement) (c : String) :
    applyNameOverrideToElement (some e :: rest) c
      = if e.elemChildCount = 0 then
          if e.textContent ≠ c then (some ⟨[.textNode c]⟩ :: rest, 1)
          else (some e :: rest, 0)
        else
          match updateFirstText c e.childNodes with
          | .found nodes wrote =>
              (some ⟨nodes⟩ :: rest, if wrote then 1 else 0)
          | .notFound =>
              (some e :: (applyNameOverrideToElement rest c).1,
                (applyNameOverrideToElement rest c).2) := by
  rw [applyNameOverrideToElement]

/-- The block produced by one name-override application is a fixed point
of a second application with the same name, which then performs no DOM
write, provided the name is non-empty and trim-stable. -/
theorem applyElem_settled (el : MesElement) (c : String) (hc : c ≠ "")
    (ht : jsTrim c = c) :
    applyNameOverrideToElement (applyNameOverrideToElement el c).1 c
      = ((applyNameOverrideToElement el c).1, 0) := by
  induction el with
  | nil => rfl
  | cons x rest ih =>
    cases x with
    | none =>
      rw [applyElem_cons_none rest c]
      rw [applyElem_cons_none ((applyNameOverrideToElement rest c).1) c]
      rw [ih]
    | some e =>
      rw [applyElem_cons_some e rest c]
      by_cases he : e.elemChildCount = 0
      · by_cases htc : e.textContent = c
        · rw [if_pos he, if_neg (by simp [htc])]
          rw [applyElem_cons_some e rest c, if_pos he, if_neg (by simp [htc])]
        · rw [if_pos he, if_pos htc]
          have h1 : (⟨[ChildNode.textNode c]⟩ : NameElem).elemChildCount = 0 := by
            simp [NameElem.elemChildCount, List.countP_cons, ChildNode.isElem]
          have h2 : (⟨[ChildNode.textNode c]⟩ : NameElem).textContent = c := by
            simp [NameElem.textContent, ChildNode.text, String.join]
          rw [applyElem_cons_some ⟨[ChildNode.textNode c]⟩ rest c,
            if_pos h1, if_neg (by simp [h2])]
      · rw [if_neg he]
        cases hrec : updateFirstText c e.childNodes with
        | notFound =>
          simp only [hrec]
          rw [applyElem_cons_some e ((applyNameOverrideToElement rest c).1) c,
            if_neg he]
          simp only [hrec]
          rw [ih]
        | found nodes wrote =>
          have h1 : (⟨nodes⟩ : NameElem).elemChildCount ≠ 0 := by
            have hcount := updateFirstText_elemCount c e.childNodes nodes wrote hrec
            simpa [NameElem.elemChildCount, hcount] using he
          have h2 : updateFirstText c nodes = .found nodes false :=
            updateFirstText_settled c hc ht e.childNodes nodes wrote hrec
          simp only [hrec]
          rw [applyElem_cons_some ⟨nodes⟩ rest c, if_neg h1, h2]
          rfl

/-! ## List and cache lemmas -/

/-- Writing back the value already stored at an index is the identity. -/
theorem list_set_same {α : Type} (l : List α) (i : Nat) (a : α)
    (h : l.get? i = some a) : l.set i a = l := by
  induction l generalizing i with
  | nil => rfl
  | cons x xs ih =>
    cases i with
    | zero => simp_all [List.set]
    | succ n => simp_all [List.set]

/-- A successful indexed lookup implies the index is in range. -/
theorem get?_lt {α : Type} (l : List α) (n : Nat) (a : α)
    (h : l.get? n = some a) : n < l.length := by
  by_contra hc
  push_neg at hc
  rw [List.get?_eq_none.mpr hc] at h
  cases h

/-- Reading the key just written. -/
theorem cacheGet_set_self (c : List (String × String)) (k v : String) :
    cacheGet (cacheSet c k v) k = some v := by
  simp [cacheGet, cacheSet, List.find?]

/-- A pair whose key differs from the looked-up key is skipped. -/
theorem cacheGet_cons_ne (q : String × String) (cs : List (String × String))
    (k2 : String) (h : q.1 ≠ k2) : cacheGet (q :: cs) k2 = cacheGet cs k2 := by
  rw [cacheGet, List.find?_cons_of_neg _ (by simp [h]), cacheGet]

/-- A pair whose key equals the looked-up key is returned. -/
theorem cacheGet_cons_eq (q : String × String) (cs : List (String × String))
    (k2 : String) (h : q.1 = k2) : cacheGet (q :: cs) k2 = some q.2 := by
  rw [cacheGet, List.find?_cons_of_pos _ (by simp [h])]
  rfl

/-- Dropping the bindings of one key leaves lookups of other keys
alone. -/
theorem cacheGet_filter_other (c : List (String × String)) (k k2 : String)
    (h : k2 ≠ k) :
    cacheGet (c.filter (fun p => p.1 ≠ k)) k2 = cacheGet c k2 := by
  induction c with
  | nil => rfl
  | cons q cs ih =>
    rw [List.filter_cons]
    by_cases hq : q.1 = k
    · rw [if_neg (by simp [hq])]
      rw [cacheGet_cons_ne q cs k2 (by rw [hq]; exact Ne.symm h)]
      exact ih
    · rw [if_pos (by simp [hq])]
      by_cases hq2 : q.1 = k2
      · rw [cacheGet_cons_eq q _ k2 hq2, cacheGet_cons_eq q cs k2 hq2]
      · rw [cacheGet_cons_ne q _ k2 hq2, cacheGet_cons_ne q cs k2 hq2]
        exact ih

/-- Reading another key after a write. -/
theorem cacheGet_set_other (c : List (String × String)) (k v k2 : String)
    (h : k2 ≠ k) : cacheGet (cacheSet c k v) k2 = cacheGet c k2 := by
  rw [cacheSet, cacheGet_cons_ne (k, v) _ k2 (Ne.symm h)]
  exact cacheGet_filter_other c k k2 h

/-- A cached value belongs to the cache list. -/
theorem cacheGet_mem (c : List (String × String)) (k v : String)
    (h : cacheGet c k = some v) : (k, v) ∈ c := by
  rw [cacheGet] at h
  cases hf : c.find? (fun p => p.1 = k) with
  | none => rw [hf] at h; cases h
  | some p =>
    rw [hf] at h
    have hmem := List.mem_of_find?_eq_some hf
    have hp1 : p.1 = k := by
      have := List.find?_some hf
      simpa using this
    have hp2 : p.2 = v := by
      simpa using h
    have hpv : p = (k, v) := by
      cases p with
      | mk a b => simp_all
    rwa [hpv] at hmem

/-- A memoized value survives a cache extension. -/
theorem cacheExtends_get (c c2 : List (String × String)) (k v : String)
    (h : CacheExtends c c2) (hv : cacheGet c k = some v) :
    cacheGet c2 k = some v := by
  rcases h with h | ⟨k2, v2, hk2, hn, rfl⟩
  · rwa [h]
  · have : k ≠ k2 := by
      intro he
      rw [he, hn] at hv
      cases hv
    rw [cacheGet_set_other c k2 v2 k this]
    exact hv

/-- The empty key is never memoized by a cache extension. -/
theorem cacheExtends_get_empty (c c2 : List (String × String))
    (h : CacheExtends c c2) (hv : cacheGet c "" = none) :
    cacheGet c2 "" = none := by
  rcases h with h | ⟨k2, v2, hk2, hn, rfl⟩
  · rwa [h]
  · rw [cacheGet_set_other c k2 v2 "" (fun he => hk2 he.symm)]
    exact hv

/-- Values of an extended cache are trim-stable when the extension value
and the previous values are. -/
theorem cacheSet_stable (c : List (String × String)) (k v : String)
    (hc : ∀ p ∈ c, jsTrim p.2 = p.2) (hv : jsTrim v = v) :
    ∀ p ∈ cacheSet c k v, jsTrim p.2 = p.2 := by
  intro p hp
  rw [cacheSet] at hp
  rcases List.mem_cons.mp hp with hp | hp
  · rw [hp]
    exact hv
  · exact hc p (List.mem_of_mem_filter hp)

/-! ## Frame lemmas for the synchronizer -/

/-- Indexed lookup after writing a different index. -/
theorem get?_set_other {α : Type} (l : List α) (i j : Nat) (a : α)
    (h : j ≠ i) : (l.set i a).get? j = l.get? j :=
  List.get?_set_ne a l (fun he => h he.symm)

/-- `updateUIName` only ever changes the rendering block of the message
it was called for. -/
theorem updateUIName_frame (st : ChatState) (id : Nat) :
    (updateUIName st id).1.characters = st.characters
  ∧ (updateUIName st id).1.characterId = st.characterId
  ∧ (updateUIName st id).1.groupId = st.groupId
  ∧ (updateUIName st id).1.name2 = st.name2
  ∧ (updateUIName st id).1.chat = st.chat
  ∧ (updateUIName st id).1.cache = st.cache := by
  unfold updateUIName
  cases hm : st.chat.get? id with
  | none => simp
  | some m =>
    by_cases hu : m.is_user = true ∨ m.is_system = true
    · simp [hu]
    · cases hd : st.dom.get? id with
      | none => simp [hu]
      | some o =>
        cases o with
        | none => simp [hu]
        | some el => simp [hu]

/-- `updateUIName` leaves rendering blocks of other messages alone. -/
theorem updateUIName_dom_other (st : ChatState) (id j : Nat) (hj : j ≠ id) :
    (updateUIName st id).1.dom.get? j = st.dom.get? j := by
  unfold updateUIName
  cases hm : st.chat.get? id with
  | none => simp
  | some m =>
    by_cases hu : (m.is_user || m.is_system) = true
    · simp [hu]
    · cases hd : st.dom.get? id with
      | none => simp [hu]
      | some o =>
        cases o with
        | none => simp [hu]
        | some el =>
          simp only [hu, if_false]
          simp [List.getElem?_set_ne (fun h => hj h.symm)]

/-- `stepLookup` only ever changes the cache. -/
theorem stepLookup_frame (st : ChatState) (m : Message) :
    (stepLookup st m).2.characters = st.characters
  ∧ (stepLookup st m).2.characterId = st.characterId
  ∧ (stepLookup st m).2.groupId = st.groupId
  ∧ (stepLookup st m).2.name2 = st.name2
  ∧ (stepLookup st m).2.chat = st.chat
  ∧ (stepLookup st m).2.dom = st.dom := by
  cases hk : cacheKeyOf m with
  | none => simp [stepLookup, hk, strTruthy]
  | some k =>
    cases hv : cacheGet st.cache k with
    | some v => simp [stepLookup, hk, hv]
    | none =>
      by_cases ht : k = ""
      · subst ht
        simp [stepLookup, hk, hv, strTruthy]
      · simp [stepLookup, hk, hv, strTruthy, ht]

/-- `stepLookup` extends the cache as `CacheExtends` describes. -/
theorem stepLookup_cache (st : ChatState) (m : Message) :
    CacheExtends st.cache (stepLookup st m).2.cache := by
  cases hk : cacheKeyOf m with
  | none => left; simp [stepLookup, hk, strTruthy]
  | some k =>
    cases hv : cacheGet st.cache k with
    | some v => left; simp [stepLookup, hk, hv]
    | none =>
      by_cases ht : k = ""
      · left
        subst ht
        simp [stepLookup, hk, hv, strTruthy]
      · right
        refine ⟨k, resolveNow st m, ht, hv, ?_⟩
        simp [stepLookup, hk, hv, strTruthy, ht]

/-- Unfolding: cache hit. -/
theorem stepLookup_hit (st : ChatState) (m : Message) (k v : String)
    (hk : cacheKeyOf m = some k) (hv : cacheGet st.cache k = some v) :
    stepLookup st m = (v, st) := by
  simp [stepLookup, hk, hv]

/-- Unfolding: cache miss under a truthy key memoizes the resolution. -/
theorem stepLookup_miss (st : ChatState) (m : Message) (k : String)
    (hk : cacheKeyOf m = some k) (hv : cacheGet st.cache k = none)
    (hkt : k ≠ "") :
    stepLookup st m
      = (resolveNow st m,
          { st with cache := cacheSet st.cache k (resolveNow st m) }) := by
  simp [stepLookup, hk, hv, strTruthy, hkt]

/-- Unfolding: cache miss under the empty key memoizes nothing. -/
theorem stepLookup_miss_empty (st : ChatState) (m : Message)
    (hk : cacheKeyOf m = some "") (hv : cacheGet st.cache "" = none) :
    stepLookup st m = (resolveNow st m, st) := by
  simp [stepLookup, hk, hv, strTruthy]

/-- Unfolding: an untruthy key skips the cache entirely. -/
theorem stepLookup_nokey (st : ChatState) (m : Message)
    (hk : cacheKeyOf m = none) :
    stepLookup st m = (resolveNow st m, st) := by
  simp [stepLookup, hk, strTruthy]

/-- Unfolding: an empty resolved name applies nothing. -/
theorem stepApply_empty (st : ChatState) (m : Message) (id w : Nat) :
    stepApply st m id "" w = (st, w) := by
  simp [stepApply]

/-- Unfolding: a non-empty resolved name installs and updates. -/
theorem stepApply_run (st : ChatState) (m : Message) (id w : Nat)
    (cn : String) (hcn : cn ≠ "") :
    stepApply st m id cn w
      = ((updateUIName
            { st with chat := st.chat.set id (applyPersistentName m cn) } id).1,
          w + (updateUIName
            { st with chat := st.chat.set id (applyPersistentName m cn) } id).2) := by
  simp [stepApply, hcn]

/-- Unfolding: `syncStep` at a missing index. -/
theorem syncStep_none (st : ChatState) (w id : Nat)
    (h : st.chat.get? id = none) : syncStep st w id = (st, w) := by
  unfold syncStep
  rw [h]

/-- Unfolding: `syncStep` skips user and system messages. -/
theorem syncStep_skip (st : ChatState) (w id : Nat) (m : Message)
    (hm : st.chat.get? id = some m)
    (h : m.is_user = true ∨ m.is_system = true) : syncStep st w id = (st, w) := by
  unfold syncStep
  rw [hm]
  simp [h]

/-- Unfolding: `syncStep` on a character message. -/
theorem syncStep_run (st : ChatState) (w id : Nat) (m : Message)
    (hm : st.chat.get? id = some m) (hu : m.is_user = false)
    (hs : m.is_system = false) :
    syncStep st w id
      = stepApply (stepLookup st m).2 m id (stepLookup st m).1 w := by
  unfold syncStep
  rw [hm]
  simp [hu, hs]

/-- On an already-processed message, `applyPersistentName` is the
identity. -/
theorem applyPersistentName_processed (m : Message) (cn : String)
    (h : m.override.isSome = true) : applyPersistentName m cn = m := by
  simp [applyPersistentName, h]

/-- On a fresh message and a non-empty name, `applyPersistentName`
installs the override. -/
theorem applyPersistentName_fresh (m : Message) (cn : String)
    (h : m.override = none) (hcn : cn ≠ "") :
    applyPersistentName m cn = { m with override := some cn } := by
  simp [applyPersistentName, h, hcn]

/-- A processed message carries a truthy, hence non-empty, cache key. -/
theorem cacheKeyOf_truthy (m : Message) (h : strTruthy m.nameRead = true) :
    ∃ k, cacheKeyOf m = some k ∧ k ≠ "" := by
  rw [cacheKeyOf, jsOr]
  by_cases ha : strTruthy (avatarOf m) = true
  · rw [if_pos ha]
    cases hav : avatarOf m with
    | none => rw [hav] at ha; simp [strTruthy] at ha
    | some a =>
      rw [hav] at ha
      exact ⟨a, rfl, by simpa [strTruthy] using ha⟩
  · rw [if_neg ha]
    cases hread : m.nameRead with
    | none => rw [hread] at h; simp [strTruthy] at h
    | some a =>
      rw [hread] at h
      exact ⟨a, rfl, by simpa [strTruthy] using h⟩

/-- Indexed lookup after writing that same index. -/
theorem get?_set_self {α : Type} (l : List α) (i : Nat) (a : α)
    (h : i < l.length) : (l.set i a).get? i = some a := by
  induction l generalizing i with
  | nil => cases h
  | cons x xs ih =>
    cases i with
    | zero => rfl
    | succ n => exact ih n (Nat.lt_of_succ_lt_succ h)

/-- Splitting the negated user-or-system guard. -/
theorem not_user_system (m : Message)
    (h : ¬((m.is_user || m.is_system) = true)) :
    m.is_user = false ∧ m.is_system = false := by
  constructor
  · cases hx : m.is_user
    · rfl
    · exact absurd (by rw [hx]; rfl) h
  · cases hx : m.is_system
    · rfl
    · exact absurd (by rw [hx]; simp) h

/-- The resolver only ever returns a member of the roster. -/
theorem getCharacterForMessage_mem (characters : List Character)
    (characterId : Option Nat) (groupId : Option String) (m : Message)
    (c : Character)
    (h : getCharacterForMessage characters characterId groupId m = some c) :
    c ∈ characters := by
  simp only [getCharacterForMessage] at h
  split at h
  · rename_i c1 heq
    split at heq
    · injection h with h1
      subst h1
      exact List.mem_of_find?_eq_some heq
    · cases heq
  · split at h
    · rename_i c1 heq
      split at heq
      · injection h with h1
        subst h1
        exact List.mem_of_find?_eq_some heq
      · cases heq
    · split at h
      · rename_i c1 heq
        split at heq
        · injection h with h1
          subst h1
          exact List.mem_of_find?_eq_some heq
        · cases heq
      · split at h
        · rename_i c1 heq
          split at heq
          · injection h with h1
            subst h1
            exact List.mem_of_find?_eq_some heq
          · cases heq
        · split at h
          · exact List.get?_mem h
          · cases h

/-- The resolved name of a cache miss is trim-stable whenever all card
names are. -/
theorem resolveNow_trimStable (st : ChatState) (m : Message)
    (hch : ∀ c ∈ st.characters, jsTrim (c.name.getD "") = c.name.getD "") :
    jsTrim (resolveNow st m) = resolveNow st m := by
  rw [resolveNow]
  apply getChatName_trimStable
  intro ch hcc
  exact hch ch (getCharacterForMessage_mem _ _ _ _ _ hcc)

/-! ## Characterizing one synchronizer step -/

/-- What `updateUIName` does on a character message whose name reads as
`nm`: nothing when the rendering block is missing, otherwise one
name-override application on the block. -/
theorem updateUIName_cases (st : ChatState) (id : Nat) (m : Message)
    (nm : String) (hm : st.chat.get? id = some m) (hu : m.is_user = false)
    (hs : m.is_system = false) (hread : m.nameRead = some nm) :
    ((st.dom.get? id = none ∨ st.dom.get? id = some none) ∧
        updateUIName st id = (st, 0))
  ∨ (∃ el, st.dom.get? id = some (some el) ∧
        updateUIName st id
          = ({ st with
                dom := st.dom.set id
                  (some (applyNameOverrideToElement el nm).1) },
              (applyNameOverrideToElement el nm).2)) := by
  have hnm : m.nameRead.getD "" = nm := by rw [hread]; rfl
  unfold updateUIName
  rw [hm]
  cases hd : st.dom.get? id with
  | none =>
    left
    refine ⟨Or.inl rfl, ?_⟩
    simp [hu, hs]
  | some o =>
    cases o with
    | none =>
      left
      refine ⟨Or.inr rfl, ?_⟩
      simp [hu, hs]
    | some el =>
      right
      refine ⟨el, rfl, ?_⟩
      simp [hu, hs, hnm]

/-- On a processed character message, the apply phase leaves the
transcript alone and performs one name-override application with the
installed override on the rendering block, when present. -/
theorem stepApply_processed (st : ChatState) (m : Message) (id w : Nat)
    (ov cn : String) (hm : st.chat.get? id = some m) (hu : m.is_user = false)
    (hs : m.is_system = false) (ho : m.override = some ov) (hove : ov ≠ "")
    (hcn : cn ≠ "") :
    ((st.dom.get? id = none ∨ st.dom.get? id = some none) ∧
        stepApply st m id cn w = (st, w))
  ∨ (∃ el, st.dom.get? id = some (some el) ∧
        stepApply st m id cn w
          = ({ st with
                dom := st.dom.set id
                  (some (applyNameOverrideToElement el ov).1) },
              w + (applyNameOverrideToElement el ov).2)) := by
  have hproc : m.override.isSome = true := by rw [ho]; rfl
  have hread : m.nameRead = some ov := nameRead_of_override m ov ho hove
  have hst2 : ({ st with
      chat := st.chat.set id (applyPersistentName m cn) } : ChatState) = st := by
    rw [applyPersistentName_processed m cn hproc, list_set_same st.chat id m hm]
  rw [stepApply, if_pos hcn, hst2]
  rcases updateUIName_cases st id m ov hm hu hs hread with ⟨hd, heq⟩ | ⟨el, hd, heq⟩
  · left
    exact ⟨hd, by simp [heq]⟩
  · right
    exact ⟨el, hd, by simp [heq]⟩

/-- On a fresh character message and a non-empty resolved name, the
apply phase installs the override and performs one name-override
application with it on the rendering block, when present. -/
theorem stepApply_fresh (st : ChatState) (m : Message) (id w : Nat)
    (cn : String) (hm : st.chat.get? id = some m) (hu : m.is_user = false)
    (hs : m.is_system = false) (ho : m.override = none) (hcn : cn ≠ "") :
    ((st.dom.get? id = none ∨ st.dom.get? id = some none) ∧
        stepApply st m id cn w
          = ({ st with
                chat := st.chat.set id { m with override := some cn } }, w))
  ∨ (∃ el, st.dom.get? id = some (some el) ∧
        stepApply st m id cn w
          = ({ st with
                chat := st.chat.set id { m with override := some cn },
                dom := st.dom.set id
                  (some (applyNameOverrideToElement el cn).1) },
              w + (applyNameOverrideToElement el cn).2)) := by
  have hlen : id < st.chat.length := get?_lt st.chat id m hm
  have happ : applyPersistentName m cn = { m with override := some cn } :=
    applyPersistentName_fresh m cn ho hcn
  set m2 : Message := { m with override := some cn } with hm2def
  have hm2read : m2.nameRead = some cn := by
    rw [Message.nameRead]
    simp [hm2def, hcn]
  set st2 : ChatState := { st with chat := st.chat.set id m2 } with hst2def
  have hst2eq : ({ st with
      chat := st.chat.set id (applyPersistentName m cn) } : ChatState) = st2 := by
    rw [happ]
  have hm2get : st2.chat.get? id = some m2 := by
    rw [hst2def]
    exact get?_set_self st.chat id m2 hlen
  have hm2u : m2.is_user = false := hu
  have hm2s : m2.is_system = false := hs
  rw [stepApply, if_pos hcn, hst2eq]
  have hdom2 : st2.dom = st.dom := rfl
  rcases updateUIName_cases st2 id m2 cn hm2get hm2u hm2s hm2read with
    ⟨hd, heq⟩ | ⟨el, hd, heq⟩
  · left
    rw [hdom2] at hd
    exact ⟨hd, by simp [heq]⟩
  · right
    rw [hdom2] at hd
    exact ⟨el, hd, by simp [heq]⟩

/-- A missing rendering block is vacuously settled. -/
theorem settledDom_of_missing (st : ChatState) (id : Nat) (ov : String)
    (hd : st.dom.get? id = none ∨ st.dom.get? id = some none) :
    settledDom st id ov := by
  unfold settledDom
  rcases hd with hd | hd <;> rw [hd] <;> trivial

/-- The invariant holds vacuously where no message exists. -/
theorem inv_vacuous_none (st : ChatState) (id : Nat)
    (hm : st.chat.get? id = none) : Inv st id := by
  intro m hm2 _ _
  rw [hm] at hm2
  cases hm2

/-- The invariant holds vacuously at user and system messages. -/
theorem inv_vacuous_user (st : ChatState) (id : Nat) (m : Message)
    (hm : st.chat.get? id = some m) (hus : (m.is_user || m.is_system) = true) :
    Inv st id := by
  intro m2 hm2 hu2 hs2
  rw [hm] at hm2
  injection hm2 with he
  subst he
  rw [hu2, hs2] at hus
  cases hus

/-- Building the invariant at an unprocessed message. -/
theorem inv_of_unprocessed (st : ChatState) (id : Nat) (m : Message)
    (hm : st.chat.get? id = some m) (ho : m.override = none)
    (hA : InvA st m) : Inv st id := by
  intro m2 hm2 _ _
  rw [hm] at hm2
  injection hm2 with he
  subst he
  refine ⟨fun _ => hA, fun ov hov => ?_⟩
  rw [ho] at hov
  cases hov

/-- Building the invariant at a processed message. -/
theorem inv_of_processed (st : ChatState) (id : Nat) (m : Message)
    (ov : String) (hm : st.chat.get? id = some m) (ho : m.override = some ov)
    (hove : ov ≠ "") (hovt : jsTrim ov = ov)
    (hrest : settledDom st id ov ∨
      ∃ k, cacheKeyOf m = some k ∧ cacheGet st.cache k = some "") :
    Inv st id := by
  intro m2 hm2 _ _
  rw [hm] at hm2
  injection hm2 with he
  subst he
  refine ⟨fun hno => ?_, fun ov2 hov2 => ?_⟩
  · rw [ho] at hno
    cases hno
  · rw [ho] at hov2
    injection hov2 with he2
    subst he2
    exact ⟨hove, hovt, hrest⟩

/-- The apply phase never touches roster, selection, group, `name2` or
the cache. -/
theorem stepApply_frame (st : ChatState) (m : Message) (id : Nat)
    (cn : String) (w : Nat) :
    (stepApply st m id cn w).1.characters = st.characters
  ∧ (stepApply st m id cn w).1.characterId = st.characterId
  ∧ (stepApply st m id cn w).1.groupId = st.groupId
  ∧ (stepApply st m id cn w).1.name2 = st.name2
  ∧ (stepApply st m id cn w).1.cache = st.cache := by
  by_cases hcn : cn = ""
  · subst hcn
    rw [stepApply_empty]
    exact ⟨rfl, rfl, rfl, rfl, rfl⟩
  · rw [stepApply, if_pos hcn]
    have h := updateUIName_frame
      ({ st with chat := st.chat.set id (applyPersistentName m cn) }) id
    exact ⟨h.1, h.2.1, h.2.2.1, h.2.2.2.1, h.2.2.2.2.2⟩

/-- The apply phase touches at most the transcript entry and the
rendering block of its own message. -/
theorem stepApply_local (st : ChatState) (m : Message) (id : Nat)
    (cn : String) (w j : Nat) (hj : j ≠ id) :
    (stepApply st m id cn w).1.chat.get? j = st.chat.get? j
  ∧ (stepApply st m id cn w).1.dom.get? j = st.dom.get? j := by
  by_cases hcn : cn = ""
  · subst hcn
    rw [stepApply_empty]
    exact ⟨rfl, rfl⟩
  · rw [stepApply, if_pos hcn]
    set st2 : ChatState :=
      { st with chat := st.chat.set id (applyPersistentName m cn) } with hst2
    have hchat := (updateUIName_frame st2 id).2.2.2.2.1
    have hdom := updateUIName_dom_other st2 id j hj
    constructor
    · rw [hchat]
      exact get?_set_other st.chat id j _ hj
    · exact hdom

/-- How the apply phase may change the transcript. -/
theorem stepApply_chat (st : ChatState) (m : Message) (id : Nat)
    (cn : String) (w : Nat) :
    (stepApply st m id cn w).1.chat = st.chat
  ∨ (cn ≠ "" ∧ (stepApply st m id cn w).1.chat
      = st.chat.set id (applyPersistentName m cn)) := by
  by_cases hcn : cn = ""
  · subst hcn
    rw [stepApply_empty]
    exact Or.inl rfl
  · right
    rw [stepApply, if_pos hcn]
    exact ⟨hcn, (updateUIName_frame _ id).2.2.2.2.1⟩

/-- The cache delivered by the lookup phase keeps all values
trim-stable. -/
theorem stepLookup_cache_stable (st : ChatState) (m : Message)
    (hc : ∀ p ∈ st.cache, jsTrim p.2 = p.2)
    (hch : ∀ c ∈ st.characters, jsTrim (c.name.getD "") = c.name.getD "") :
    ∀ p ∈ (stepLookup st m).2.cache, jsTrim p.2 = p.2 := by
  cases hk : cacheKeyOf m with
  | none =>
    rw [stepLookup_nokey st m hk]
    exact hc
  | some k =>
    cases hv : cacheGet st.cache k with
    | some v =>
      rw [stepLookup_hit st m k v hk hv]
      exact hc
    | none =>
      by_cases ht : k = ""
      · subst ht
        rw [stepLookup_miss_empty st m hk hv]
        exact hc
      · rw [stepLookup_miss st m k hk hv ht]
        exact cacheSet_stable st.cache k (resolveNow st m) hc
          (resolveNow_trimStable st m hch)

/-- The name delivered by the lookup phase is trim-stable. -/
theorem stepLookup_value (st : ChatState) (m : Message)
    (hc : ∀ p ∈ st.cache, jsTrim p.2 = p.2)
    (hch : ∀ c ∈ st.characters, jsTrim (c.name.getD "") = c.name.getD "") :
    jsTrim (stepLookup st m).1 = (stepLookup st m).1 := by
  cases hk : cacheKeyOf m with
  | none =>
    rw [stepLookup_nokey st m hk]
    exact resolveNow_trimStable st m hch
  | some k =>
    cases hv : cacheGet st.cache k with
    | some v =>
      rw [stepLookup_hit st m k v hk hv]
      exact hc (k, v) (cacheGet_mem st.cache k v hv)
    | none =>
      by_cases ht : k = ""
      · subst ht
        rw [stepLookup_miss_empty st m hk hv]
        exact resolveNow_trimStable st m hch
      · rw [stepLookup_miss st m k hk hv ht]
        exact resolveNow_trimStable st m hch

/-- One `forEach` step never touches roster, selection, group or
`name2`. -/
theorem syncStep_frame (st : ChatState) (w id : Nat) :
    (syncStep st w id).1.characters = st.characters
  ∧ (syncStep st w id).1.characterId = st.characterId
  ∧ (syncStep st w id).1.groupId = st.groupId
  ∧ (syncStep st w id).1.name2 = st.name2 := by
  cases hm : st.chat.get? id with
  | none =>
    rw [syncStep_none st w id hm]
    exact ⟨rfl, rfl, rfl, rfl⟩
  | some m =>
    by_cases hus : (m.is_user || m.is_system) = true
    · rw [syncStep_skip st w id m hm (by simpa using hus)]
      exact ⟨rfl, rfl, rfl, rfl⟩
    · obtain ⟨hu, hs⟩ := not_user_system m hus
      rw [syncStep_run st w id m hm hu hs]
      have hL := stepLookup_frame st m
      have hA := stepApply_frame (stepLookup st m).2 m id (stepLookup st m).1 w
      exact ⟨hA.1.trans hL.1, hA.2.1.trans hL.2.1, hA.2.2.1.trans hL.2.2.1,
        hA.2.2.2.1.trans hL.2.2.2.1⟩

/-- One `forEach` step extends the cache as `CacheExtends` describes. -/
theorem syncStep_cacheExtends (st : ChatState) (w id : Nat) :
    CacheExtends st.cache (syncStep st w id).1.cache := by
  cases hm : st.chat.get? id with
  | none =>
    rw [syncStep_none st w id hm]
    exact Or.inl rfl
  | some m =>
    by_cases hus : (m.is_user || m.is_system) = true
    · rw [syncStep_skip st w id m hm (by simpa using hus)]
      exact Or.inl rfl
    · obtain ⟨hu, hs⟩ := not_user_system m hus
      rw [syncStep_run st w id m hm hu hs]
      have hA := (stepApply_frame (stepLookup st m).2 m id (stepLookup st m).1 w).2.2.2.2
      rw [hA]
      exact stepLookup_cache st m

/-- One `forEach` step touches at most its own transcript entry and
rendering block. -/
theorem syncStep_local (st : ChatState) (w id j : Nat) (hj : j ≠ id) :
    (syncStep st w id).1.chat.get? j = st.chat.get? j
  ∧ (syncStep st w id).1.dom.get? j = st.dom.get? j := by
  cases hm : st.chat.get? id with
  | none =>
    rw [syncStep_none st w id hm]
    exact ⟨rfl, rfl⟩
  | some m =>
    by_cases hus : (m.is_user || m.is_system) = true
    · rw [syncStep_skip st w id m hm (by simpa using hus)]
      exact ⟨rfl, rfl⟩
    · obtain ⟨hu, hs⟩ := not_user_system m hus
      rw [syncStep_run st w id m hm hu hs]
      have hL := stepLookup_frame st m
      have hA := stepApply_local (stepLookup st m).2 m id (stepLookup st m).1 w j hj
      refine ⟨hA.1.trans ?_, hA.2.trans ?_⟩
      · rw [hL.2.2.2.2.1]
      · rw [hL.2.2.2.2.2]

/-- One `forEach` step keeps the transcript length. -/
theorem syncStep_chat_length (st : ChatState) (w id : Nat) :
    (syncStep st w id).1.chat.length = st.chat.length := by
  cases hm : st.chat.get? id with
  | none =>
    rw [syncStep_none st w id hm]
  | some m =>
    by_cases hus : (m.is_user || m.is_system) = true
    · rw [syncStep_skip st w id m hm (by simpa using hus)]
    · obtain ⟨hu, hs⟩ := not_user_system m hus
      rw [syncStep_run st w id m hm hu hs]
      have hL := (stepLookup_frame st m).2.2.2.2.1
      rcases stepApply_chat (stepLookup st m).2 m id (stepLookup st m).1 w with
        h | ⟨_, h⟩
      · rw [h, hL]
      · rw [h, List.length_set, hL]

/-- One `forEach` step preserves trim-stability of the ambient data. -/
theorem syncStep_good (st : ChatState) (w id : Nat) (hG : GoodState st) :
    GoodState (syncStep st w id).1 := by
  obtain ⟨hGc, hGm, hGch⟩ := hG
  cases hm : st.chat.get? id with
  | none =>
    rw [syncStep_none st w id hm]
    exact ⟨hGc, hGm, hGch⟩
  | some m =>
    by_cases hus : (m.is_user || m.is_system) = true
    · rw [syncStep_skip st w id m hm (by simpa using hus)]
      exact ⟨hGc, hGm, hGch⟩
    · obtain ⟨hu, hs⟩ := not_user_system m hus
      rw [syncStep_run st w id m hm hu hs]
      have hL := stepLookup_frame st m
      have hA := stepApply_frame (stepLookup st m).2 m id (stepLookup st m).1 w
      refine ⟨?_, ?_, ?_⟩
      · rw [hA.2.2.2.2]
        exact stepLookup_cache_stable st m hGc hGch
      · rcases stepApply_chat (stepLookup st m).2 m id (stepLookup st m).1 w with
          h | ⟨hcn, h⟩
        · rw [h, hL.2.2.2.2.1]
          exact hGm
        · rw [h, hL.2.2.2.2.1]
          intro m2 hm2 ov hov
          rcases List.mem_or_eq_of_mem_set hm2 with hmem | heq
          · exact hGm m2 hmem ov hov
          · subst heq
            cases ho : m.override with
            | some ov2 =>
              have hproc : m.override.isSome = true := by rw [ho]; rfl
              rw [applyPersistentName_processed m _ hproc] at hov
              exact hGm m (List.get?_mem hm) ov hov
            | none =>
              rw [applyPersistentName_fresh m _ ho hcn] at hov
              injection hov with he
              subst he
              exact ⟨hcn, stepLookup_value st m hGc hGch⟩
      · rw [hA.1, hL.1]
        exact hGch

/-! ## Congruence and preservation lemmas -/

/-- The resolver reads only the roster, selection and group fields. -/
theorem resolveNow_congr (st st2 : ChatState) (m : Message)
    (h1 : st2.characters = st.characters)
    (h2 : st2.characterId = st.characterId)
    (h3 : st2.groupId = st.groupId) : resolveNow st2 m = resolveNow st m := by
  simp [resolveNow, h1, h2, h3]

/-- `InvA` transports along frames that extend the cache. -/
theorem invA_preserved (st st2 : ChatState) (m : Message)
    (h1 : st2.characters = st.characters)
    (h2 : st2.characterId = st.characterId)
    (h3 : st2.groupId = st.groupId)
    (hc : CacheExtends st.cache st2.cache) (h : InvA st m) : InvA st2 m := by
  rw [InvA] at h ⊢
  cases hk : cacheKeyOf m with
  | none =>
    rw [hk] at h
    rw [resolveNow_congr st st2 m h1 h2 h3]
    exact h
  | some k =>
    rw [hk] at h
    rcases h with h | ⟨hn, hke, hres⟩
    · exact Or.inl (cacheExtends_get _ _ _ _ hc h)
    · subst hke
      exact Or.inr ⟨cacheExtends_get_empty _ _ hc hn, rfl,
        (resolveNow_congr st st2 m h1 h2 h3).trans hres⟩

/-- `InvB` transports along frames that extend the cache. -/
theorem invB_preserved (st st2 : ChatState) (id : Nat) (m : Message)
    (hdom : st2.dom.get? id = st.dom.get? id)
    (hc : CacheExtends st.cache st2.cache) (h : InvB st id m) :
    InvB st2 id m := by
  intro ov hov
  obtain ⟨he, ht, hrest⟩ := h ov hov
  refine ⟨he, ht, ?_⟩
  rcases hrest with hs | ⟨k, hk, hkv⟩
  · left
    rw [settledDom] at hs ⊢
    rw [hdom]
    exact hs
  · exact Or.inr ⟨k, hk, cacheExtends_get _ _ _ _ hc hkv⟩

/-- The per-index invariant transports along frames that keep the index
untouched and extend the cache. -/
theorem inv_preserved (st st2 : ChatState) (j : Nat)
    (hchat : st2.chat.get? j = st.chat.get? j)
    (hdom : st2.dom.get? j = st.dom.get? j)
    (h1 : st2.characters = st.characters)
    (h2 : st2.characterId = st.characterId)
    (h3 : st2.groupId = st.groupId)
    (hc : CacheExtends st.cache st2.cache) (h : Inv st j) : Inv st2 j := by
  intro m hm hu hs
  obtain ⟨hA, hB⟩ := h m (hchat ▸ hm) hu hs
  exact ⟨fun ho => invA_preserved st st2 m h1 h2 h3 hc (hA ho),
    invB_preserved st st2 j m hdom hc (hB)⟩

/-! ## The second-run step is silent -/

/-- Under the invariant, one `forEach` step changes nothing visible: it
returns the state unchanged, or extends the cache by one fresh key, and
performs zero DOM writes either way. -/
theorem syncStep_silent (st : ChatState) (w id : Nat) (hInv : Inv st id) :
    syncStep st w id = (st, w)
  ∨ ∃ k v, k ≠ "" ∧ cacheGet st.cache k = none ∧
      syncStep st w id = ({ st with cache := cacheSet st.cache k v }, w) := by
  cases hm : st.chat.get? id with
  | none => exact Or.inl (syncStep_none st w id hm)
  | some m =>
    by_cases hus : (m.is_user || m.is_system) = true
    · exact Or.inl (syncStep_skip st w id m hm (by simpa using hus))
    · obtain ⟨hu, hs⟩ := not_user_system m hus
      obtain ⟨hA, hB⟩ := hInv m hm hu hs
      rw [syncStep_run st w id m hm hu hs]
      cases ho : m.override with
      | none =>
        have hA2 := hA ho
        cases hk : cacheKeyOf m with
        | none =>
          have hres : resolveNow st m = "" := by
            unfold InvA at hA2
            rw [hk] at hA2
            exact hA2
          left
          rw [stepLookup_nokey st m hk]
          have h2 : stepApply st m id (resolveNow st m) w = (st, w) := by
            rw [hres]
            exact stepApply_empty st m id w
          exact h2
        | some k =>
          have hA3 : cacheGet st.cache k = some "" ∨
              (cacheGet st.cache k = none ∧ k = "" ∧ resolveNow st m = "") := by
            unfold InvA at hA2
            rw [hk] at hA2
            exact hA2
          rcases hA3 with hv | ⟨hv, hke, hres⟩
          · left
            rw [stepLookup_hit st m k "" hk hv]
            exact stepApply_empty st m id w
          · subst hke
            left
            rw [stepLookup_miss_empty st m hk hv]
            have h2 : stepApply st m id (resolveNow st m) w = (st, w) := by
              rw [hres]
              exact stepApply_empty st m id w
            exact h2
      | some ov =>
        obtain ⟨hove, hovt, hrest⟩ := hB ov ho
        have hread := nameRead_of_override m ov ho hove
        obtain ⟨k, hk, hkne⟩ := cacheKeyOf_truthy m
          (by rw [hread]; simpa [strTruthy] using hove)
        cases hv : cacheGet st.cache k with
        | some v =>
          by_cases hve : v = ""
          · left
            subst hve
            rw [stepLookup_hit st m k "" hk hv]
            exact stepApply_empty st m id w
          · have hsett : settledDom st id ov := by
              rcases hrest with hsett | ⟨k2, hk2, hkv⟩
              · exact hsett
              · rw [hk] at hk2
                injection hk2 with he
                subst he
                rw [hkv] at hv
                injection hv with he2
                exact absurd he2.symm hve
            left
            rw [stepLookup_hit st m k v hk hv]
            rcases stepApply_processed st m id w ov v hm hu hs ho hove hve with
              ⟨hd, heq⟩ | ⟨el, hd, heq⟩
            · exact heq
            · have hsett2 : applyNameOverrideToElement el ov = (el, 0) := by
                have h2 := hsett
                unfold settledDom at h2
                rw [hd] at h2
                exact h2
              have hds : st.dom.set id (some el) = st.dom :=
                list_set_same st.dom id (some el) hd
              rw [heq, hsett2]
              simp [hds]
        | none =>
          have hsett : settledDom st id ov := by
            rcases hrest with hsett | ⟨k2, hk2, hkv⟩
            · exact hsett
            · rw [hk] at hk2
              injection hk2 with he
              subst he
              rw [hkv] at hv
              cases hv
          right
          refine ⟨k, resolveNow st m, hkne, hv, ?_⟩
          rw [stepLookup_miss st m k hk hv hkne]
          set stC : ChatState :=
            { st with cache := cacheSet st.cache k (resolveNow st m) } with hstC
          by_cases hcn : resolveNow st m = ""
          · have h2 : stepApply stC m id (resolveNow st m) w = (stC, w) := by
              rw [hcn]
              exact stepApply_empty stC m id w
            exact h2
          · have hmC : stC.chat.get? id = some m := hm
            rcases stepApply_processed stC m id w ov (resolveNow st m)
                hmC hu hs ho hove hcn with ⟨hd, heq⟩ | ⟨el, hd, heq⟩
            · exact heq
            · have hd2 : st.dom.get? id = some (some el) := hd
              have hsett2 : applyNameOverrideToElement el ov = (el, 0) := by
                have h2 := hsett
                unfold settledDom at h2
                rw [hd2] at h2
                exact h2
              have hds : stC.dom.set id (some el) = stC.dom :=
                list_set_same stC.dom id (some el) hd
              rw [heq, hsett2]
              simp [hds]

/-! ## The first run establishes the invariant -/

/-- After a fresh install with no rendering block, the invariant holds. -/
theorem inv_fresh_nodom (st : ChatState) (id : Nat) (m : Message)
    (cn : String) (hm : st.chat.get? id = some m) (hcn : cn ≠ "")
    (htrim : jsTrim cn = cn)
    (hd : st.dom.get? id = none ∨ st.dom.get? id = some none) :
    Inv ({ st with chat := st.chat.set id { m with override := some cn } })
      id := by
  refine inv_of_processed _ id { m with override := some cn } cn ?_ rfl hcn
    htrim (Or.inl ?_)
  · exact get?_set_self st.chat id _ (get?_lt st.chat id m hm)
  · exact settledDom_of_missing _ id cn hd

/-- After a fresh install and a DOM update, the invariant holds. -/
theorem inv_fresh_dom (st : ChatState) (id : Nat) (m : Message)
    (cn : String) (el : MesElement) (hm : st.chat.get? id = some m)
    (hcn : cn ≠ "") (htrim : jsTrim cn = cn)
    (hd : st.dom.get? id = some (some el)) :
    Inv ({ st with
            chat := st.chat.set id { m with override := some cn },
            dom := st.dom.set id
              (some (applyNameOverrideToElement el cn).1) }) id := by
  refine inv_of_processed _ id { m with override := some cn } cn ?_ rfl hcn
    htrim (Or.inl ?_)
  · exact get?_set_self st.chat id _ (get?_lt st.chat id m hm)
  · unfold settledDom
    have hg : ({ st with
        chat := st.chat.set id { m with override := some cn },
        dom := st.dom.set id (some (applyNameOverrideToElement el cn).1) } :
          ChatState).dom.get? id
        = some (some (applyNameOverrideToElement el cn).1) :=
      get?_set_self st.dom id _ (get?_lt st.dom id _ hd)
    rw [hg]
    exact applyElem_settled el cn hcn htrim

/-- After updating the rendering block of a processed message, the
invariant holds. -/
theorem inv_processed_dom (st : ChatState) (id : Nat) (m : Message)
    (ov : String) (el : MesElement) (hm : st.chat.get? id = some m)
    (ho : m.override = some ov) (hove : ov ≠ "") (hovt : jsTrim ov = ov)
    (hd : st.dom.get? id = some (some el)) :
    Inv ({ st with
            dom := st.dom.set id
              (some (applyNameOverrideToElement el ov).1) }) id := by
  refine inv_of_processed _ id m ov (by exact hm) ho hove hovt (Or.inl ?_)
  unfold settledDom
  have hg : ({ st with
      dom := st.dom.set id (some (applyNameOverrideToElement el ov).1) } :
        ChatState).dom.get? id
      = some (some (applyNameOverrideToElement el ov).1) :=
    get?_set_self st.dom id _ (get?_lt st.dom id _ hd)
  rw [hg]
  exact applyElem_settled el ov hove hovt

/-- Running one `forEach` step establishes the invariant at its own
index, given trim-stable ambient data. -/
theorem syncStep_establish (st : ChatState) (w id : Nat) (hG : GoodState st) :
    Inv (syncStep st w id).1 id := by
  obtain ⟨hGc, hGm, hGch⟩ := hG
  cases hm : st.chat.get? id with
  | none =>
    rw [syncStep_none st w id hm]
    exact inv_vacuous_none st id hm
  | some m =>
    by_cases hus : (m.is_user || m.is_system) = true
    · rw [syncStep_skip st w id m hm (by simpa using hus)]
      exact inv_vacuous_user st id m hm hus
    · obtain ⟨hu, hs⟩ := not_user_system m hus
      rw [syncStep_run st w id m hm hu hs]
      cases ho : m.override with
      | none =>
        cases hk : cacheKeyOf m with
        | none =>
          rw [stepLookup_nokey st m hk]
          show Inv (stepApply st m id (resolveNow st m) w).1 id
          by_cases hcne : resolveNow st m = ""
          · rw [hcne, stepApply_empty]
            refine inv_of_unprocessed st id m hm ho ?_
            unfold InvA
            rw [hk]
            exact hcne
          · have htrim := resolveNow_trimStable st m hGch
            rcases stepApply_fresh st m id w (resolveNow st m) hm hu hs ho hcne
              with ⟨hd, heq⟩ | ⟨el, hd, heq⟩
            · rw [heq]
              exact inv_fresh_nodom st id m _ hm hcne htrim hd
            · rw [heq]
              exact inv_fresh_dom st id m _ el hm hcne htrim hd
        | some k =>
          cases hv : cacheGet st.cache k with
          | some v =>
            rw [stepLookup_hit st m k v hk hv]
            show Inv (stepApply st m id v w).1 id
            by_cases hve : v = ""
            · subst hve
              rw [stepApply_empty]
              refine inv_of_unprocessed st id m hm ho ?_
              unfold InvA
              rw [hk]
              exact Or.inl hv
            · have htrim : jsTrim v = v := hGc (k, v) (cacheGet_mem st.cache k v hv)
              rcases stepApply_fresh st m id w v hm hu hs ho hve
                with ⟨hd, heq⟩ | ⟨el, hd, heq⟩
              · rw [heq]
                exact inv_fresh_nodom st id m v hm hve htrim hd
              · rw [heq]
                exact inv_fresh_dom st id m v el hm hve htrim hd
          | none =>
            by_cases hke : k = ""
            · subst hke
              rw [stepLookup_miss_empty st m hk hv]
              show Inv (stepApply st m id (resolveNow st m) w).1 id
              by_cases hcne : resolveNow st m = ""
              · rw [hcne, stepApply_empty]
                refine inv_of_unprocessed st id m hm ho ?_
                unfold InvA
                rw [hk]
                exact Or.inr ⟨hv, rfl, hcne⟩
              · have htrim := resolveNow_trimStable st m hGch
                rcases stepApply_fresh st m id w (resolveNow st m) hm hu hs ho
                  hcne with ⟨hd, heq⟩ | ⟨el, hd, heq⟩
                · rw [heq]
                  exact inv_fresh_nodom st id m _ hm hcne htrim hd
                · rw [heq]
                  exact inv_fresh_dom st id m _ el hm hcne htrim hd
            · rw [stepLookup_miss st m k hk hv hke]
              set stC : ChatState :=
                { st with cache := cacheSet st.cache k (resolveNow st m) }
                with hstC
              show Inv (stepApply stC m id (resolveNow st m) w).1 id
              have hmC : stC.chat.get? id = some m := hm
              by_cases hcne : resolveNow st m = ""
              · rw [hcne, stepApply_empty]
                refine inv_of_unprocessed stC id m hmC ho ?_
                unfold InvA
                rw [hk]
                left
                have hself : cacheGet stC.cache k = some (resolveNow st m) :=
                  cacheGet_set_self st.cache k (resolveNow st m)
                rw [hcne] at hself
                exact hself
              · have htrim := resolveNow_trimStable st m hGch
                rcases stepApply_fresh stC m id w (resolveNow st m) hmC hu hs
                  ho hcne with ⟨hd, heq⟩ | ⟨el, hd, heq⟩
                · rw [heq]
                  exact inv_fresh_nodom stC id m _ hmC hcne htrim hd
                · rw [heq]
                  exact inv_fresh_dom stC id m _ el hmC hcne htrim hd
      | some ov =>
        have hmem := List.get?_mem hm
        obtain ⟨hove, hovt⟩ := hGm m hmem ov ho
        have hread := nameRead_of_override m ov ho hove
        obtain ⟨k, hk, hkne⟩ := cacheKeyOf_truthy m
          (by rw [hread]; simpa [strTruthy] using hove)
        cases hv : cacheGet st.cache k with
        | some v =>
          rw [stepLookup_hit st m k v hk hv]
          show Inv (stepApply st m id v w).1 id
          by_cases hve : v = ""
          · subst hve
            rw [stepApply_empty]
            exact inv_of_processed st id m ov hm ho hove hovt
              (Or.inr ⟨k, hk, hv⟩)
          · rcases stepApply_processed st m id w ov v hm hu hs ho hove hve
              with ⟨hd, heq⟩ | ⟨el, hd, heq⟩
            · rw [heq]
              exact inv_of_processed st id m ov hm ho hove hovt
                (Or.inl (settledDom_of_missing st id ov hd))
            · rw [heq]
              exact inv_processed_dom st id m ov el hm ho hove hovt hd
        | none =>
          rw [stepLookup_miss st m k hk hv hkne]
          set stC : ChatState :=
            { st with cache := cacheSet st.cache k (resolveNow st m) }
            with hstC
          show Inv (stepApply stC m id (resolveNow st m) w).1 id
          have hmC : stC.chat.get? id = some m := hm
          by_cases hcne : resolveNow st m = ""
          · rw [hcne, stepApply_empty]
            refine inv_of_processed stC id m ov hmC ho hove hovt
              (Or.inr ⟨k, hk, ?_⟩)
            have hself : cacheGet stC.cache k = some (resolveNow st m) :=
              cacheGet_set_self st.cache k (resolveNow st m)
            rw [hcne] at hself
            exact hself
          · rcases stepApply_processed stC m id w ov (resolveNow st m) hmC hu
              hs ho hove hcne with ⟨hd, heq⟩ | ⟨el, hd, heq⟩
            · rw [heq]
              exact inv_of_processed stC id m ov hmC ho hove hovt
                (Or.inl (settledDom_of_missing stC id ov hd))
            · rw [heq]
              exact inv_processed_dom stC id m ov el hmC ho hove hovt hd

/-! ## Whole-run lemmas -/

/-- Unfolding: the loop over no indices. -/
theorem syncLoop_nil (acc : ChatState × Nat) : syncLoop acc [] = acc := rfl

/-- Unfolding: the loop over a first index. -/
theorem syncLoop_cons (acc : ChatState × Nat) (i : Nat) (rest : List Nat) :
    syncLoop acc (i :: rest) = syncLoop (syncStep acc.1 acc.2 i) rest := rfl

/-- Running the loop from a trim-stable state keeps the state
trim-stable, preserves the frame fields and the transcript length,
transports the invariant, and establishes it at every visited index. -/
theorem syncLoop_establishes (ids : List Nat) (st : ChatState) (w : Nat)
    (hG : GoodState st) :
    GoodState (syncLoop (st, w) ids).1
  ∧ (syncLoop (st, w) ids).1.characters = st.characters
  ∧ (syncLoop (st, w) ids).1.characterId = st.characterId
  ∧ (syncLoop (st, w) ids).1.groupId = st.groupId
  ∧ (syncLoop (st, w) ids).1.name2 = st.name2
  ∧ (syncLoop (st, w) ids).1.chat.length = st.chat.length
  ∧ (∀ j, Inv st j → Inv (syncLoop (st, w) ids).1 j)
  ∧ (∀ j ∈ ids, Inv (syncLoop (st, w) ids).1 j) := by
  induction ids generalizing st w with
  | nil =>
    exact ⟨hG, rfl, rfl, rfl, rfl, rfl, fun j h => h,
      fun j hj => absurd hj (List.not_mem_nil j)⟩
  | cons i rest ih =>
    rw [syncLoop_cons]
    have hG1 : GoodState (syncStep st w i).1 := syncStep_good st w i hG
    have hfr := syncStep_frame st w i
    have hce := syncStep_cacheExtends st w i
    have hlen := syncStep_chat_length st w i
    have hpres : ∀ j, Inv st j → Inv (syncStep st w i).1 j := by
      intro j hj
      by_cases hji : j = i
      · subst hji
        exact syncStep_establish st w j hG
      · have hl := syncStep_local st w i j hji
        exact inv_preserved st (syncStep st w i).1 j hl.1 hl.2 hfr.1 hfr.2.1
          hfr.2.2.1 hce hj
    have hself : Inv (syncStep st w i).1 i := syncStep_establish st w i hG
    obtain ⟨G2, F1, F2, F3, F4, L2, P2, E2⟩ :=
      ih (syncStep st w i).1 (syncStep st w i).2 hG1
    refine ⟨G2, F1.trans hfr.1, F2.trans hfr.2.1, F3.trans hfr.2.2.1,
      F4.trans hfr.2.2.2, L2.trans hlen, fun j hj => P2 j (hpres j hj), ?_⟩
    intro j hj
    rcases List.mem_cons.mp hj with hj | hj
    · subst hj
      exact P2 j hself
    · exact E2 j hj

/-- Under the invariant at every index, the loop changes nothing visible
and performs zero DOM writes. -/
theorem syncLoop_silent_all (ids : List Nat) (st : ChatState) (w : Nat)
    (hInv : ∀ j, Inv st j) :
    (syncLoop (st, w) ids).1.chat = st.chat
  ∧ (syncLoop (st, w) ids).1.dom = st.dom
  ∧ (syncLoop (st, w) ids).1.name2 = st.name2
  ∧ (syncLoop (st, w) ids).2 = w := by
  induction ids generalizing st w with
  | nil => exact ⟨rfl, rfl, rfl, rfl⟩
  | cons i rest ih =>
    rw [syncLoop_cons]
    rcases syncStep_silent st w i (hInv i) with heq | ⟨k, v, hk, hn, heq⟩
    · rw [heq]
      exact ih st w hInv
    · rw [heq]
      have hInvC : ∀ j,
          Inv ({ st with cache := cacheSet st.cache k v } : ChatState) j := by
        intro j
        refine inv_preserved st _ j rfl rfl rfl rfl rfl ?_ (hInv j)
        exact Or.inr ⟨k, v, hk, hn, rfl⟩
      obtain ⟨h1, h2, h3, h4⟩ :=
        ih ({ st with cache := cacheSet st.cache k v }) w hInvC
      exact ⟨h1, h2, h3, h4⟩

/-- The `name2` phase only ever changes `name2`. -/
theorem syncName2_frame (st : ChatState) :
    (syncName2 st).characters = st.characters
  ∧ (syncName2 st).characterId = st.characterId
  ∧ (syncName2 st).groupId = st.groupId
  ∧ (syncName2 st).chat = st.chat
  ∧ (syncName2 st).dom = st.dom
  ∧ (syncName2 st).cache = st.cache := by
  unfold syncName2
  split
  · dsimp only
    split
    · exact ⟨rfl, rfl, rfl, rfl, rfl, rfl⟩
    · exact ⟨rfl, rfl, rfl, rfl, rfl, rfl⟩
  · exact ⟨rfl, rfl, rfl, rfl, rfl, rfl⟩

/-- A state whose `name2` already carries the value the `name2` phase
would compute is a fixed point of that phase. -/
theorem syncName2_stable (st st2 : ChatState)
    (h1 : st2.characters = st.characters)
    (h2 : st2.characterId = st.characterId)
    (h3 : st2.groupId = st.groupId)
    (h4 : st2.name2 = (syncName2 st).name2) : syncName2 st2 = st2 := by
  unfold syncName2 at h4 ⊢
  rw [h1, h2, h3]
  by_cases hc : (st.characterId.isSome && !(strTruthy st.groupId)) = true
  · rw [if_pos hc] at h4 ⊢
    by_cases hg : ((getChatName (st.characters.get? (st.characterId.getD 0))
        ≠ "" : Bool)
        && (st.name2 ≠ getChatName (st.characters.get? (st.characterId.getD 0))
          : Bool)) = true
    · rw [if_pos hg] at h4
      have hgoal : ¬(((getChatName
          (st.characters.get? (st.characterId.getD 0)) ≠ "" : Bool)
          && (st2.name2 ≠ getChatName
            (st.characters.get? (st.characterId.getD 0)) : Bool)) = true) := by
        rw [h4]
        simp
      rw [if_neg hgoal]
    · rw [if_neg hg] at h4
      have hgoal : ¬(((getChatName
          (st.characters.get? (st.characterId.getD 0)) ≠ "" : Bool)
          && (st2.name2 ≠ getChatName
            (st.characters.get? (st.characterId.getD 0)) : Bool)) = true) := by
        rw [h4]
        exact hg
      rw [if_neg hgoal]
  · rw [if_neg hc]

/-- Computing the `name2` phase in a one-on-one chat with a resolved
non-empty chat name that differs from the current `name2`. -/
theorem syncName2_compute (st : ChatState) (c : Character) (i : Nat)
    (hcid : st.characterId = some i) (hgid : st.groupId = none)
    (hchar : st.characters.get? i = some c)
    (hcn : getChatName (some c) ≠ "")
    (hne : st.name2 ≠ getChatName (some c)) :
    syncName2 st = { st with name2 := getChatName (some c) } := by
  unfold syncName2
  rw [hcid, hgid]
  rw [if_pos (show ((some i).isSome && !strTruthy none) = true from rfl)]
  dsimp only
  rw [show (some i).getD 0 = i from rfl, hchar]
  have hg : (decide (getChatName (some c) ≠ "")
      && decide (st.name2 ≠ getChatName (some c))) = true := by
    simp [hcn, hne]
  rw [if_pos hg]

/-- Unfolding: the loop over a first index, explicit pair form. -/
theorem syncLoop_cons_pair (st : ChatState) (w i : Nat) (rest : List Nat) :
    syncLoop (st, w) (i :: rest) = syncLoop (syncStep st w i) rest := rfl

/-- A first avatar-step match decides the resolver. -/
theorem resolver_avatar_first (characters : List Character)
    (characterId : Option Nat) (groupId : Option String) (m : Message)
    (cA : Character) (h1 : normalizeAvatar (avatarOf m) ≠ "")
    (h2 : characters.find?
        (fun c => normalizeAvatar c.avatar = normalizeAvatar (avatarOf m))
      = some cA) :
    getCharacterForMessage characters characterId groupId m = some cA := by
  unfold getCharacterForMessage
  simp [h1, h2]

/-- The loop never touches a user or system message or its rendering
block. -/
theorem syncLoop_untouched (ids : List Nat) (st : ChatState) (w id : Nat)
    (m : Message) (hm : st.chat.get? id = some m)
    (hus : m.is_user = true ∨ m.is_system = true) :
    (syncLoop (st, w) ids).1.chat.get? id = some m
  ∧ (syncLoop (st, w) ids).1.dom.get? id = st.dom.get? id := by
  induction ids generalizing st w with
  | nil => exact ⟨hm, rfl⟩
  | cons i rest ih =>
    rw [syncLoop_cons]
    by_cases hii : i = id
    · subst hii
      rw [syncStep_skip st w i m hm hus]
      exact ih st w hm
    · have hl := syncStep_local st w i id (fun he => hii he.symm)
      obtain ⟨h1, h2⟩ :=
        ih (syncStep st w i).1 (syncStep st w i).2 (hl.1.trans hm)
      exact ⟨h1, h2.trans hl.2⟩

/-! ## Claims -/

/-- Claim C1: for every character, the resolved display name
(`getChatName`) equals the trimmed override when the stored override is
non-blank after trimming, and equals the character's card name when the
override is absent, blank, or whitespace-only. -/
theorem claim_C1_chat_name_resolution (c : Character) (d : String)
    (hd : c.name = some d) :
    (jsTrim (c.chatName.getD "") ≠ "" →
        getChatName (some c) = jsTrim (c.chatName.getD ""))
  ∧ (jsTrim (c.chatName.getD "") = "" → getChatName (some c) = d) := by
  constructor <;> intro h <;> simp [getChatName, h, hd]

/-- Concrete instance of claim C1: an override of " Merrick " stored on a
card named "Merrick - The Gambit" resolves to "Merrick". -/
theorem claim_C1_witness :
    getChatName (some ⟨none, some "Merrick - The Gambit", some " Merrick "⟩)
      = jsTrim " Merrick " :=
  (claim_C1_chat_name_resolution
      ⟨none, some "Merrick - The Gambit", some " Merrick "⟩
      "Merrick - The Gambit" rfl).1 (by decide)

/-- Claim C2: the resolver's matching steps run in strict priority order
with first match winning; whenever some character matches by normalized
avatar identifier, the resolver returns the first such character, no
matter which characters match by exact or fuzzy name. -/
theorem claim_C2_avatar_priority (characters : List Character)
    (characterId : Option Nat) (groupId : Option String) (m : Message)
    (cA : Character)
    (h1 : normalizeAvatar (avatarOf m) ≠ "")
    (h2 : characters.find?
        (fun c => normalizeAvatar c.avatar = normalizeAvatar (avatarOf m))
      = some cA) :
    getCharacterForMessage characters characterId groupId m = some cA := by
  unfold getCharacterForMessage
  simp [h1, h2]

/-- Concrete instance of claim C2: a message whose avatar matches Alice
and whose author name exactly matches Bob resolves to Alice. -/
theorem claim_C2_witness :
    getCharacterForMessage
      [⟨some "b.png", some "Bob", none⟩, ⟨some "a.png", some "Alice", none⟩]
      (some 0) none
      ⟨some "a.png", none, none, some "Bob", none, false, false⟩
      = some ⟨some "a.png", some "Alice", none⟩ :=
  claim_C2_avatar_priority _ _ _ _ _ (by decide) (by decide)

/-- Claim C5: installing a persistent name override is non-destructive:
the hidden original author name is preserved verbatim, the override is
recorded separately, and later host writes to the name field land in the
hidden original value, so the original is never irreversibly
overwritten. -/
theorem claim_C5_nondestructive (m : Message) (cn : String)
    (h1 : m.override = none) (h2 : cn ≠ "") :
    (applyPersistentName m cn).origName = m.origName
  ∧ (applyPersistentName m cn).override = some cn
  ∧ ∀ v, ((applyPersistentName m cn).setName v).origName = some v := by
  simp [applyPersistentName, h1, h2, Message.setName]

/-- Concrete instance of claim C5. -/
theorem claim_C5_witness :
    (applyPersistentName ⟨none, none, none, some "Card", none, false, false⟩
        "Merrick").origName = some "Card"
  ∧ (applyPersistentName ⟨none, none, none, some "Card", none, false, false⟩
        "Merrick").override = some "Merrick"
  ∧ ∀ v, ((applyPersistentName ⟨none, none, none, some "Card", none, false,
        false⟩ "Merrick").setName v).origName = some v :=
  claim_C5_nondestructive _ "Merrick" rfl (by decide)

/-- Claim C7: when a message matches no character at the resolver's
earlier steps, then in a non-group conversation with a selected
character the resolver returns that character, and when the conversation
is a group or no character is selected it returns none. -/
theorem claim_C7_single_char_fallback (characters : List Character)
    (characterId : Option Nat) (groupId : Option String) (m : Message)
    (h1 : normalizeAvatar (avatarOf m) = "" ∨
      characters.find?
          (fun c => normalizeAvatar c.avatar = normalizeAvatar (avatarOf m))
        = none)
    (h2 : strTruthy m.original_avatar = false ∨
      characters.find?
          (fun c => normalizeAvatar c.avatar = normalizeAvatar m.original_avatar)
        = none)
    (h3 : msgNameOf m = "" ∨
      characters.find? (fun c => c.name = some (msgNameOf m)) = none)
    (h4 : msgNameOf m = "" ∨
      characters.find? (fun c =>
          let charName := jsTrim (c.name.getD "")
          charName.length > 2 &&
            (strIncludes (msgNameOf m) charName ||
              strIncludes charName (msgNameOf m)))
        = none) :
    (∀ i c, strTruthy groupId = false → characterId = some i →
        characters.get? i = some c →
        getCharacterForMessage characters characterId groupId m = some c)
  ∧ (strTruthy groupId = true ∨ characterId = none →
        getCharacterForMessage characters characterId groupId m = none) := by
  unfold getCharacterForMessage
  constructor
  · intro i c hg hi hc
    have hc2 : characters[i]? = some c := by
      simpa [List.get?_eq_getElem?] using hc
    rcases h1 with h1 | h1 <;> rcases h2 with h2 | h2 <;>
      rcases h3 with h3 | h3 <;> rcases h4 with h4 | h4 <;>
      simp [h1, h2, h3, h4, hg, hi, hc2]
  · intro hg
    rcases h1 with h1 | h1 <;> rcases h2 with h2 | h2 <;>
      rcases h3 with h3 | h3 <;> rcases h4 with h4 | h4 <;>
      rcases hg with hg | hg <;>
      simp [h1, h2, h3, h4, hg]

/-- Concrete instance of claim C7: a message with no avatar whose name
matches nothing resolves to the single selected character. -/
theorem claim_C7_witness :
    getCharacterForMessage [⟨some "a.png", some "Alice", none⟩] (some 0) none
      ⟨none, none, none, some "Zed", none, false, false⟩
      = some ⟨some "a.png", some "Alice", none⟩ :=
  (claim_C7_single_char_fallback _ _ _ _
      (by right; decide) (by left; decide) (by right; decide)
      (by right; decide)).1
    0 ⟨some "a.png", some "Alice", none⟩ rfl rfl rfl

/-- Claim C8: macro registration never propagates an exception: it
always returns normally, the legacy generation is attempted whenever
present (also when the new generation failed), and each generation that
is present and does not fail gets registered; in particular registering
against both when both are present does not throw. -/
theorem claim_C8_registration_no_throw (h : MacroHost) :
    ∃ o, registerMacroOverrides h = Except.ok o
      ∧ (h.hasLegacy = true → o.legacyAttempted = true)
      ∧ (h.hasMacros = true → o.newAttempted = true)
      ∧ (h.hasMacros = true ∧ h.newRegFails = false → o.newRegistered = true)
      ∧ (h.hasLegacy = true ∧ h.legacyFails = false →
          o.legacyRegistered = true) := by
  rcases h with ⟨hm, he, hn, hl, hf⟩
  cases hm <;> cases he <;> cases hn <;> cases hl <;> cases hf <;>
    exact ⟨_, rfl, by decide, by decide, by decide, by decide⟩

/-- Concrete instance of claim C8: both generations present, the new one
failing, still returns normally with the legacy generation attempted. -/
theorem claim_C8_witness :
    ∃ o, registerMacroOverrides ⟨true, true, true, true, false⟩ = Except.ok o
      ∧ ((true : Bool) = true → o.legacyAttempted = true)
      ∧ ((true : Bool) = true → o.newAttempted = true)
      ∧ ((true : Bool) = true ∧ (true : Bool) = false → o.newRegistered = true)
      ∧ ((true : Bool) = true ∧ (false : Bool) = false →
          o.legacyRegistered = true) :=
  claim_C8_registration_no_throw ⟨true, true, true, true, false⟩

/-- Claim C9: initialization is guarded by the initialized flag: the
flag is set once initialization completes, and a further call to the
entry point changes nothing, so no duplicate event subscriptions, input
fields, or macro registrations are created. -/
theorem claim_C9_init_idempotent (w : World) :
    (initExtension w).initialized = true
  ∧ initExtension (initExtension w) = initExtension w :=
  ⟨initExtension_initialized w,
    initExtension_of_initialized _ (initExtension_initialized w)⟩

/-- Claim C10: once a persistent override with a non-empty chat name is
installed on a message, every read of the name field returns that chat
name, and any assignment to the field (also repeated ones) only updates
the hidden original value without changing what reads return. -/
theorem claim_C10_reads_fixed (m : Message) (cn : String)
    (h1 : m.override = none) (h2 : cn ≠ "") :
    (applyPersistentName m cn).nameRead = some cn
  ∧ (∀ v, ((applyPersistentName m cn).setName v).nameRead = some cn
        ∧ ((applyPersistentName m cn).setName v).origName = some v)
  ∧ ∀ vs : List String,
      (vs.foldl Message.setName (applyPersistentName m cn)).nameRead
        = some cn := by
  have hm : (applyPersistentName m cn).override = some cn := by
    simp [applyPersistentName, h1, h2]
  refine ⟨nameRead_of_override _ _ hm h2, ?_, ?_⟩
  · intro v
    exact ⟨nameRead_of_override _ _ (by rw [setName_override, hm]) h2,
      by simp [Message.setName]⟩
  · intro vs
    exact nameRead_of_override _ _ (by rw [foldl_setName_override, hm]) h2

/-- Claim C6: user- and system-authored messages and their rendering
blocks are never touched, neither by the synchronizer nor by the DOM
updater. -/
theorem claim_C6_user_system_untouched (st : ChatState) (id : Nat)
    (m : Message) (hm : st.chat.get? id = some m)
    (hus : m.is_user = true ∨ m.is_system = true) :
    (syncChatData st).1.chat.get? id = some m
  ∧ (syncChatData st).1.dom.get? id = st.dom.get? id
  ∧ updateUIName st id = (st, 0) := by
  have hui : updateUIName st id = (st, 0) := by
    unfold updateUIName
    rw [hm]
    rcases hus with h | h <;> simp [h]
  have hn2 := syncName2_frame st
  have hm0 : (syncName2 st).chat.get? id = some m := by
    rw [hn2.2.2.2.1]
    exact hm
  have hloop := syncLoop_untouched
    (List.range (syncName2 st).chat.length) (syncName2 st) 0 id m hm0 hus
  refine ⟨hloop.1, hloop.2.trans ?_, hui⟩
  rw [hn2.2.2.2.2.1]

/-- Concrete instance of claim C6. -/
theorem claim_C6_witness :
    (syncChatData exUserState).1.chat.get? 0
      = some ⟨none, none, none, some "You", none, true, false⟩
  ∧ (syncChatData exUserState).1.dom.get? 0 = exUserState.dom.get? 0
  ∧ updateUIName exUserState 0 = (exUserState, 0) :=
  claim_C6_user_system_untouched exUserState 0
    ⟨none, none, none, some "You", none, true, false⟩ rfl (Or.inl rfl)

/-- Claim C4 fails as stated: on a card name with a trailing space, the
rewrite branch of the DOM updater compares trimmed text against the
untrimmed name, so the second synchronizer run performs a DOM text write
again. -/
theorem claim_C4_counterexample :
    (syncChatData (syncChatData exRaggedState).1).2 ≠ 0 := by decide

/-- Claim C4, amended: on an unchanged transcript and DOM, a second
synchronizer run leaves the transcript, the DOM and `name2` unchanged
and performs zero additional DOM text writes, provided every memoized
name, installed override and card name equals its own trim.  (Without
that proviso the second run can rewrite a text node with the identical
untrimmed name, as the counterexample shows.) -/
theorem claim_C4_second_run_silent (st : ChatState)
    (H1 : ∀ p ∈ st.cache, jsTrim p.2 = p.2)
    (H2 : ∀ m ∈ st.chat, ∀ ov, m.override = some ov → ov ≠ "" ∧ jsTrim ov = ov)
    (H3 : ∀ c ∈ st.characters, jsTrim (c.name.getD "") = c.name.getD "") :
    (syncChatData (syncChatData st).1).1.chat = (syncChatData st).1.chat
  ∧ (syncChatData (syncChatData st).1).1.dom = (syncChatData st).1.dom
  ∧ (syncChatData (syncChatData st).1).1.name2 = (syncChatData st).1.name2
  ∧ (syncChatData (syncChatData st).1).2 = 0 := by
  have hn2 := syncName2_frame st
  have hG0 : GoodState (syncName2 st) := by
    refine ⟨?_, ?_, ?_⟩
    · rw [hn2.2.2.2.2.2]
      exact H1
    · rw [hn2.2.2.2.1]
      exact H2
    · rw [hn2.1]
      exact H3
  obtain ⟨G1, F1, F2, F3, F4, L1, P1, E1⟩ := syncLoop_establishes
    (List.range (syncName2 st).chat.length) (syncName2 st) 0 hG0
  have hs1 : (syncChatData st).1
      = (syncLoop (syncName2 st, 0)
          (List.range (syncName2 st).chat.length)).1 := rfl
  have hInvAll : ∀ j, Inv (syncChatData st).1 j := by
    intro j
    rw [hs1]
    by_cases hj : j < (syncName2 st).chat.length
    · exact E1 j (List.mem_range.mpr hj)
    · apply inv_vacuous_none
      apply List.get?_eq_none.mpr
      rw [L1]
      omega
  have hstab : syncName2 (syncChatData st).1 = (syncChatData st).1 := by
    apply syncName2_stable st
    · rw [hs1, F1, hn2.1]
    · rw [hs1, F2, hn2.2.1]
    · rw [hs1, F3, hn2.2.2.1]
    · rw [hs1, F4]
  have hrw : syncChatData (syncChatData st).1
      = syncLoop ((syncChatData st).1, 0)
          (List.range (syncChatData st).1.chat.length) := by
    show syncLoop (syncName2 (syncChatData st).1, 0)
        (List.range (syncName2 (syncChatData st).1).chat.length) = _
    rw [hstab]
  obtain ⟨h1, h2, h3, h4⟩ := syncLoop_silent_all
    (List.range (syncChatData st).1.chat.length) (syncChatData st).1 0 hInvAll
  refine ⟨?_, ?_, ?_, ?_⟩ <;> rw [hrw]
  · exact h1
  · exact h2
  · exact h3
  · exact h4

/-- Concrete instance of the amended claim C4: with a trim-stable card
name, the second run is fully silent. -/
theorem claim_C4_witness :
    (syncChatData (syncChatData exGoodState).1).1.chat
      = (syncChatData exGoodState).1.chat
  ∧ (syncChatData (syncChatData exGoodState).1).1.dom
      = (syncChatData exGoodState).1.dom
  ∧ (syncChatData (syncChatData exGoodState).1).1.name2
      = (syncChatData exGoodState).1.name2
  ∧ (syncChatData (syncChatData exGoodState).1).2 = 0 :=
  claim_C4_second_run_silent exGoodState (by decide) (by decide) (by decide)

/-- Claim C3 fails as stated: after changing the override to "B" and
clearing the cache in full, re-running the synchronizer refreshes the
cached value, but the displayed-name field of a message that already
carries an installed override still reads the old name "A" — the
persistent override is install-once. -/
theorem claim_C3_counterexample :
    ((updateAllNames exStaleOverrideState).1.chat.get? 0).map Message.nameRead
      = some (some "A")
  ∧ cacheGet (updateAllNames exStaleOverrideState).1.cache "a.png" = some "B"
  ∧ "A" ≠ "B" := by decide

/-- Claim C3, amended: after setting a character's override to a new
value and clearing the name cache in full, re-running the synchronizer
makes the cached value, and the displayed-name field of every message
without a previously installed override, reflect the new override;
messages whose name was already overridden keep their previously
installed name.  Without clearing, a previously memoized value persists
and is what a fresh message receives. -/
theorem claim_C3_cache_refresh (av card oldOv newOv stale : String)
    (stc sts : ChatState) (hA : av ≠ "")
    (hN : normalizeAvatar (some av) ≠ "") (hnew : jsTrim newOv ≠ "")
    (hold : oldOv ≠ "") (hstale : stale ≠ "")
    (hstc : stc =
      { characters := [⟨some av, some card, some newOv⟩],
        characterId := some 0, groupId := none, name2 := "",
        chat := [⟨some av, none, none, some card, none, false, false⟩,
          ⟨some av, none, none, some card, some oldOv, false, false⟩],
        dom := [none, none], cache := [] })
    (hsts : sts = { stc with cache := [(av, stale)] }) :
    ((syncChatData stc).1.chat.get? 0).map Message.nameRead
      = some (some (jsTrim newOv))
  ∧ ((syncChatData stc).1.chat.get? 1).map Message.nameRead
      = some (some oldOv)
  ∧ cacheGet (syncChatData stc).1.cache av = some (jsTrim newOv)
  ∧ ((syncChatData sts).1.chat.get? 0).map Message.nameRead
      = some (some stale)
  ∧ cacheGet (syncChatData sts).1.cache av = some stale := by
  subst hsts
  subst hstc
  set C : Character := ⟨some av, some card, some newOv⟩ with hC
  set mF : Message := ⟨some av, none, none, some card, none, false, false⟩
    with hmF
  set mO : Message := ⟨some av, none, none, some card, some oldOv, false,
    false⟩ with hmO
  have havt : strTruthy (some av) = true := by simp [strTruthy, hA]
  have havF : avatarOf mF = some av := by simp [hmF, avatarOf, jsOr, havt]
  have havO : avatarOf mO = some av := by simp [hmO, avatarOf, jsOr, havt]
  have hkeyF : cacheKeyOf mF = some av := by
    simp [cacheKeyOf, jsOr, havF, havt]
  have hkeyO : cacheKeyOf mO = some av := by
    simp [cacheKeyOf, jsOr, havO, havt]
  have hgcn : getChatName (some C) = jsTrim newOv := by
    rw [getChatName]
    simp [hC, hnew]
  have hfind : ∀ m2 : Message, avatarOf m2 = some av →
      getCharacterForMessage [C] (some 0) none m2 = some C := by
    intro m2 hm2
    refine resolver_avatar_first [C] (some 0) none m2 C ?_ ?_
    · rw [hm2]
      exact hN
    · refine List.find?_cons_of_pos _ ?_
      simp [hC, hm2]
  -- scenario 1: cache cleared
  set S0 : ChatState :=
    { characters := [C], characterId := some 0, groupId := none,
      name2 := jsTrim newOv, chat := [mF, mO], dom := [none, none],
      cache := [] } with hS0
  have hsn : syncName2
      ({ characters := [C], characterId := some 0, groupId := none,
         name2 := "", chat := [mF, mO], dom := [none, none],
         cache := [] } : ChatState) = S0 := by
    rw [syncName2_compute
      ({ characters := [C], characterId := some 0, groupId := none,
         name2 := "", chat := [mF, mO], dom := [none, none],
         cache := [] } : ChatState) C 0 rfl rfl rfl
      (by rw [hgcn]; exact hnew) (by rw [hgcn]; exact Ne.symm hnew)]
    rw [hgcn]
  set m2 : Message := { mF with override := some (jsTrim newOv) } with hm2
  set S1 : ChatState :=
    { characters := [C], characterId := some 0, groupId := none,
      name2 := jsTrim newOv, chat := [m2, mO], dom := [none, none],
      cache := [(av, jsTrim newOv)] } with hS1
  have hres0 : resolveNow S0 mF = jsTrim newOv := by
    show getChatName (getCharacterForMessage [C] (some 0) none mF)
      = jsTrim newOv
    rw [hfind mF havF, hgcn]
  have hstep0 : syncStep S0 0 0 = (S1, 0) := by
    rw [syncStep_run S0 0 0 mF rfl rfl rfl]
    rw [stepLookup_miss S0 mF av hkeyF (rfl) hA]
    rw [hres0]
    show stepApply ({ S0 with cache := cacheSet S0.cache av (jsTrim newOv) })
      mF 0 (jsTrim newOv) 0 = (S1, 0)
    rcases stepApply_fresh
        ({ S0 with cache := cacheSet S0.cache av (jsTrim newOv) }) mF 0 0
        (jsTrim newOv) rfl rfl rfl rfl hnew with ⟨hd, heq⟩ | ⟨el, hd, heq⟩
    · rw [heq]
      rfl
    · have hd2 : (some (none : Option MesElement)) = some (some el) := hd
      simp at hd2
  have hcget1 : cacheGet S1.cache av = some (jsTrim newOv) := by
    show cacheGet [(av, jsTrim newOv)] av = some (jsTrim newOv)
    exact cacheGet_cons_eq (av, jsTrim newOv) [] av rfl
  have hstep1 : syncStep S1 0 1 = (S1, 0) := by
    rw [syncStep_run S1 0 1 mO rfl rfl rfl]
    rw [stepLookup_hit S1 mO av (jsTrim newOv) hkeyO hcget1]
    show stepApply S1 mO 1 (jsTrim newOv) 0 = (S1, 0)
    rcases stepApply_processed S1 mO 1 0 oldOv (jsTrim newOv) rfl rfl rfl rfl
        hold hnew with ⟨hd, heq⟩ | ⟨el, hd, heq⟩
    · rw [heq]
    · have hd2 : (some (none : Option MesElement)) = some (some el) := hd
      simp at hd2
  have hfull : syncChatData
      ({ characters := [C], characterId := some 0, groupId := none,
         name2 := "", chat := [mF, mO], dom := [none, none],
         cache := [] } : ChatState) = (S1, 0) := by
    show syncLoop (syncName2 _, 0) (List.range (syncName2 _).chat.length)
      = (S1, 0)
    rw [hsn]
    show syncLoop (S0, 0) (List.range 2) = (S1, 0)
    rw [show List.range 2 = [0, 1] from rfl]
    rw [syncLoop_cons_pair, hstep0, syncLoop_cons_pair, hstep1, syncLoop_nil]
  -- scenario 2: stale cache kept
  set S0s : ChatState :=
    { characters := [C], characterId := some 0, groupId := none,
      name2 := jsTrim newOv, chat := [mF, mO], dom := [none, none],
      cache := [(av, stale)] } with hS0s
  have hsns : syncName2
      ({ characters := [C], characterId := some 0, groupId := none,
         name2 := "", chat := [mF, mO], dom := [none, none],
         cache := [(av, stale)] } : ChatState) = S0s := by
    rw [syncName2_compute
      ({ characters := [C], characterId := some 0, groupId := none,
         name2 := "", chat := [mF, mO], dom := [none, none],
         cache := [(av, stale)] } : ChatState) C 0 rfl rfl rfl
      (by rw [hgcn]; exact hnew) (by rw [hgcn]; exact Ne.symm hnew)]
    rw [hgcn]
  set m2s : Message := { mF with override := some stale } with hm2s
  set S1s : ChatState :=
    { characters := [C], characterId := some 0, groupId := none,
      name2 := jsTrim newOv, chat := [m2s, mO], dom := [none, none],
      cache := [(av, stale)] } with hS1s
  have hcgets : cacheGet ([(av, stale)] : List (String × String)) av
      = some stale := cacheGet_cons_eq (av, stale) [] av rfl
  have hstep0s : syncStep S0s 0 0 = (S1s, 0) := by
    rw [syncStep_run S0s 0 0 mF rfl rfl rfl]
    rw [stepLookup_hit S0s mF av stale hkeyF hcgets]
    show stepApply S0s mF 0 stale 0 = (S1s, 0)
    rcases stepApply_fresh S0s mF 0 0 stale rfl rfl rfl rfl hstale with
      ⟨hd, heq⟩ | ⟨el, hd, heq⟩
    · rw [heq]
      rfl
    · have hd2 : (some (none : Option MesElement)) = some (some el) := hd
      simp at hd2
  have hstep1s : syncStep S1s 0 1 = (S1s, 0) := by
    rw [syncStep_run S1s 0 1 mO rfl rfl rfl]
    rw [stepLookup_hit S1s mO av stale hkeyO hcgets]
    show stepApply S1s mO 1 stale 0 = (S1s, 0)
    rcases stepApply_processed S1s mO 1 0 oldOv stale rfl rfl rfl rfl
        hold hstale with ⟨hd, heq⟩ | ⟨el, hd, heq⟩
    · rw [heq]
    · have hd2 : (some (none : Option MesElement)) = some (some el) := hd
      simp at hd2
  have hfulls : syncChatData
      ({ characters := [C], characterId := some 0, groupId := none,
         name2 := "", chat := [mF, mO], dom := [none, none],
         cache := [(av, stale)] } : ChatState) = (S1s, 0) := by
    show syncLoop (syncName2 _, 0) (List.range (syncName2 _).chat.length)
      = (S1s, 0)
    rw [hsns]
    show syncLoop (S0s, 0) (List.range 2) = (S1s, 0)
    rw [show List.range 2 = [0, 1] from rfl]
    rw [syncLoop_cons_pair, hstep0s, syncLoop_cons_pair, hstep1s,
      syncLoop_nil]
  refine ⟨?_, ?_, ?_, ?_, ?_⟩
  · rw [hfull]
    show (some m2).map Message.nameRead = some (some (jsTrim newOv))
    simp [hm2, Message.nameRead, hnew]
  · rw [hfull]
    show (some mO).map Message.nameRead = some (some oldOv)
    simp [hmO, Message.nameRead, hold]
  · rw [hfull]
    exact hcget1
  · rw [hfulls]
    show (some m2s).map Message.nameRead = some (some stale)
    simp [hm2s, Message.nameRead, hstale]
  · rw [hfulls]
    exact hcgets

/-- Concrete instance of the amended claim C3. -/
theorem claim_C3_witness :
    ((syncChatData
        { characters := [⟨some "a.png", some "Card", some "B"⟩],
          characterId := some 0, groupId := none, name2 := "",
          chat := [⟨some "a.png", none, none, some "Card", none, false,
            false⟩,
            ⟨some "a.png", none, none, some "Card", some "A", false,
              false⟩],
          dom := [none, none], cache := [] }).1.chat.get? 0).map
        Message.nameRead = some (some (jsTrim "B"))
  ∧ ((syncChatData
        { characters := [⟨some "a.png", some "Card", some "B"⟩],
          characterId := some 0, groupId := none, name2 := "",
          chat := [⟨some "a.png", none, none, some "Card", none, false,
            false⟩,
            ⟨some "a.png", none, none, some "Card", some "A", false,
              false⟩],
          dom := [none, none], cache := [] }).1.chat.get? 1).map
        Message.nameRead = some (some "A")
  ∧ cacheGet (syncChatData
        { characters := [⟨some "a.png", some "Card", some "B"⟩],
          characterId := some 0, groupId := none, name2 := "",
          chat := [⟨some "a.png", none, none, some "Card", none, false,
            false⟩,
            ⟨some "a.png", none, none, some "Card", some "A", false,
              false⟩],
          dom := [none, none], cache := [] }).1.cache "a.png"
      = some (jsTrim "B")
  ∧ ((syncChatData
        { characters := [⟨some "a.png", some "Card", some "B"⟩],
          characterId := some 0, groupId := none, name2 := "",
          chat := [⟨some "a.png", none, none, some "Card", none, false,
            false⟩,
            ⟨some "a.png", none, none, some "Card", some "A", false,
              false⟩],
          dom := [none, none],
          cache := [("a.png", "S")] }).1.chat.get? 0).map Message.nameRead
      = some (some "S")
  ∧ cacheGet (syncChatData
        { characters := [⟨some "a.png", some "Card", some "B"⟩],
          characterId := some 0, groupId := none, name2 := "",
          chat := [⟨some "a.png", none, none, some "Card", none, false,
            false⟩,
            ⟨some "a.png", none, none, some "Card", some "A", false,
              false⟩],
          dom := [none, none],
          cache := [("a.png", "S")] }).1.cache "a.png" = some "S" :=
  claim_C3_cache_refresh "a.png" "Card" "A" "B" "S" _ _ (by decide)
    (by decide) (by decide) (by decide) (by decide) rfl rfl

/-- Concrete instance of claim C10. -/
theorem claim_C10_witness :
    (applyPersistentName ⟨none, none, none, some "Card", none, false, false⟩
        "Merrick").nameRead = some "Merrick"
  ∧ (∀ v, ((applyPersistentName ⟨none, none, none, some "Card", none, false,
          false⟩ "Merrick").setName v).nameRead = some "Merrick"
      ∧ ((applyPersistentName ⟨none, none, none, some "Card", none, false,
          false⟩ "Merrick").setName v).origName = some v)
  ∧ ∀ vs : List String,
      (vs.foldl Message.setName (applyPersistentName
          ⟨none, none, none, some "Card", none, false, false⟩ "Merrick")).nameRead
        = some "Merrick" :=
  claim_C10_reads_fixed _ "Merrick" rfl (by decide)

end CharName
